import Mathlib

/-!
Verification development for the git-gallery procedural museum.

The JavaScript source is shallowly embedded here:
* geometry (layout generator in `src/museum.js`) over `ℚ`,
* the collision resolver (`src/main.js`, uses `Math.sqrt`) over `ℝ`,
* the hash router (`src/router.js`) over `List Char`,
* the per-frame room-entry loader (`src/main.js`) as a step relation.
-/

namespace GitGallery

/-- One input repository record.  `rw` is the room width assigned to the
item by the room sizing policy (`baseRoomWidth * min(2.5, 1 + log1p(stars)*0.15)`
in `buildMuseum`); the policy's transcendental `log1p` is orthogonal to the
placement claims, so the layout embedding takes the resulting width as the
item's parameter and the theorems quantify over arbitrary widths. -/
structure Item where
  name : String
  rw : ℚ
deriving DecidableEq, Repr

/-- Side of room `i`: `i % 2 === 0 ? 1 : -1` in `buildMuseum`. -/
def sideOf (i : ℕ) : ℤ := if i % 2 = 0 then 1 else -1

/-- Corridor coordinate of slot `i`: `slotZ = -((i + 1) * hallLength)`. -/
def slotZ (L : ℚ) (i : ℕ) : ℚ := -((i + 1 : ℚ) * L)

/-- Total corridor length: `hallLen = (totalSlots + 2) * hallLength`. -/
def hallLenOf (n : ℕ) (L : ℚ) : ℚ := ((n : ℚ) + 2) * L

/-- A placed room volume (the `roomMeta` fields relevant to geometry):
world center `(centerX, centerZ)`, side, and room width. -/
structure Room where
  name : String
  side : ℤ
  centerX : ℚ
  centerZ : ℚ
  rw : ℚ
deriving DecidableEq, Repr

/-- The room volume placed for item `it` at slot `i`
(`roomCenterX = side * (hallWidth + rw / 2)`, `z = slotZ`). -/
def placeRoom (hw L : ℚ) (i : ℕ) (it : Item) : Room :=
  ⟨it.name, sideOf i, (sideOf i : ℚ) * (hw + it.rw / 2), slotZ L i, it.rw⟩

/-- The `repos.forEach((repo, i) => ...)` loop of `buildMuseum`, producing one
room volume per item in order. -/
def placeRooms (hw L : ℚ) : ℕ → List Item → List Room
  | _, [] => []
  | i, it :: rest => placeRoom hw L i it :: placeRooms hw L (i + 1) rest

/-- Layout-generator output: corridor length, end-cap wall center `z`
(`endWall.position.z = -(hallLen + 0.1)`), and the placed rooms. -/
structure MuseumLayout where
  hallLen : ℚ
  endCapZ : ℚ
  rooms : List Room
deriving DecidableEq, Repr

/-- Geometric core of `buildMuseum` (src/museum.js): corridor of length
`(N+2)·L` capped at the far end, plus one room volume per repo. -/
def buildMuseum (hw L : ℚ) (items : List Item) : MuseumLayout :=
  ⟨hallLenOf items.length L, -(hallLenOf items.length L + 0.1), placeRooms hw L 0 items⟩

theorem placeRooms_length (hw L : ℚ) : ∀ (i : ℕ) (items : List Item),
    (placeRooms hw L i items).length = items.length := by
  intro i items
  induction items generalizing i with
  | nil => rfl
  | cons it rest ih => simp [placeRooms, ih]

theorem placeRooms_getElem (hw L : ℚ) : ∀ (i0 : ℕ) (items : List Item) (j : ℕ)
    (hj : j < (placeRooms hw L i0 items).length) (hj' : j < items.length),
    (placeRooms hw L i0 items)[j] = placeRoom hw L (i0 + j) (items[j]) := by
  intro i0 items
  induction items generalizing i0 with
  | nil => intro j hj hj'; simp [placeRooms] at hj
  | cons it rest ih =>
    intro j hj hj'
    cases j with
    | zero => simp [placeRooms]
    | succ k =>
      have hk : k < (placeRooms hw L (i0 + 1) rest).length := by
        simpa [placeRooms, placeRooms_length] using hj
      have hk' : k < rest.length := by simpa using hj'
      have := ih (i0 + 1) k hk hk'
      simpa [placeRooms, Nat.add_right_comm, Nat.add_assoc, Nat.add_comm 1 k] using this

/-- Claim C1: for every ordered item list (any `N ≥ 0`), corridor unit length
`L` and corridor half-width `hw`, `buildMuseum` produces exactly `N` room
volumes; room `i` sits on side `+1` for even `i` and `-1` for odd `i`, at
`z = -(i+1)·L` and `x = side·(hw + roomWidth(i)/2)`; the corridor lane has
total length `(N+2)·L` and is capped at one end (also when `N = 0`). -/
theorem buildMuseum_layout_spec (hw L : ℚ) (items : List Item) :
    (buildMuseum hw L items).rooms.length = items.length ∧
    (∀ (j : ℕ) (hj : j < items.length)
      (hj2 : j < (buildMuseum hw L items).rooms.length),
      ((buildMuseum hw L items).rooms.get ⟨j, hj2⟩).side
          = (if j % 2 = 0 then 1 else -1) ∧
      ((buildMuseum hw L items).rooms.get ⟨j, hj2⟩).centerZ = -((j + 1 : ℚ) * L) ∧
      ((buildMuseum hw L items).rooms.get ⟨j, hj2⟩).centerX
          = ((if j % 2 = 0 then 1 else -1 : ℤ) : ℚ) * (hw + (items.get ⟨j, hj⟩).rw / 2)) ∧
    (buildMuseum hw L items).hallLen = ((items.length : ℚ) + 2) * L ∧
    (buildMuseum hw L items).endCapZ = -(((items.length : ℚ) + 2) * L + 0.1) := by
  refine ⟨by simp [buildMuseum, placeRooms_length], ?_, rfl, rfl⟩
  intro j hj hj2
  have hget : (buildMuseum hw L items).rooms.get ⟨j, hj2⟩
      = placeRoom hw L (0 + j) (items[j]) := by
    simpa [List.get_eq_getElem, buildMuseum] using
      placeRooms_getElem hw L 0 items j (by simpa [buildMuseum] using hj2) hj
  rw [hget]
  simp [placeRoom, sideOf, slotZ, List.get_eq_getElem]

/-- Witness for C1: `buildMuseum` evaluated on a concrete two-item list. -/
theorem buildMuseum_layout_spec_witness :
    (buildMuseum 4 10 [⟨"alpha", 10⟩, ⟨"beta", 12⟩]).rooms.length = 2 ∧
    (buildMuseum 4 10 [⟨"alpha", 10⟩, ⟨"beta", 12⟩]).rooms
      = [⟨"alpha", 1, 9, -10, 10⟩, ⟨"beta", -1, -10, -20, 12⟩] ∧
    (buildMuseum 4 10 [⟨"alpha", 10⟩, ⟨"beta", 12⟩]).hallLen = 40 ∧
    (buildMuseum 4 10 [⟨"alpha", 10⟩, ⟨"beta", 12⟩]).endCapZ = -(40 + 1/10) := by
  have h := buildMuseum_layout_spec 4 10 [⟨"alpha", 10⟩, ⟨"beta", 12⟩]
  refine ⟨by simpa using h.1, by
    simp [buildMuseum, placeRooms, placeRoom, sideOf, slotZ, hallLenOf]
    norm_num, by norm_num [h.2.2.1], by
    have := h.2.2.2
    norm_num at this ⊢
    exact this⟩

/-! Hallway side walls (`buildHallwaySideWalls` in src/museum.js).  For each
side the code lists one opening per room on that side
(`{zStart: slotZ + rd/2, zEnd: slotZ - rd/2}`), sorts them by decreasing
`zStart` (a stable sort, modelled by `List.insertionSort`), then walks a
cursor from `z = 0` emitting a wall segment for every span between openings,
dropping segments of length `≤ 0.05`. -/

/-- A door opening interval on one corridor side; `zEnd ≤ zStart` since `z`
decreases along the corridor. -/
structure Opening where
  zStart : ℚ
  zEnd : ℚ
deriving DecidableEq, Repr

/-- A corridor wall segment as emitted by `addHallWallSeg`: length and
center `z`. -/
structure HallSeg where
  len : ℚ
  centerZ : ℚ
deriving DecidableEq, Repr

/-- Low end of a segment's `z` span. -/
def HallSeg.lo (s : HallSeg) : ℚ := s.centerZ - s.len / 2

/-- High end of a segment's `z` span. -/
def HallSeg.hi (s : HallSeg) : ℚ := s.centerZ + s.len / 2

/-- The per-side opening list, in item order (index `i` counts from the given
start): rooms whose `sideOf` matches contribute `⟨slotZ + rd/2, slotZ - rd/2⟩`. -/
def openingsRaw (side : ℤ) (L rd : ℚ) : ℕ → List Item → List Opening
  | _, [] => []
  | i, _ :: rest =>
    if sideOf i = side then
      ⟨slotZ L i + rd / 2, slotZ L i - rd / 2⟩ :: openingsRaw side L rd (i + 1) rest
    else
      openingsRaw side L rd (i + 1) rest

/-- Openings sorted by decreasing `zStart`
(`.sort((a, b) => b.zStart - a.zStart)`, a stable sort). -/
def openings (side : ℤ) (L rd : ℚ) (items : List Item) : List Opening :=
  List.insertionSort (fun a b => b.zStart ≤ a.zStart) (openingsRaw side L rd 0 items)

/-- Cursor walk of `buildHallwaySideWalls`, keeping only segments longer than
the `0.05` epsilon. -/
def hallSegsAux (hallLen : ℚ) : ℚ → List Opening → List HallSeg
  | zCursor, [] =>
    if 0.05 < |zCursor - (-hallLen)| then
      [⟨|zCursor - (-hallLen)|, (zCursor + -hallLen) / 2⟩]
    else []
  | zCursor, op :: rest =>
    (if 0.05 < |zCursor - op.zStart| then
      [⟨|zCursor - op.zStart|, (zCursor + op.zStart) / 2⟩]
    else []) ++ hallSegsAux hallLen op.zEnd rest

/-- Same cursor walk but keeping every candidate segment (no epsilon drop);
`hallSegsAux` is its `0.05 < len` filter. -/
def hallSegsAllAux (hallLen : ℚ) : ℚ → List Opening → List HallSeg
  | zCursor, [] => [⟨|zCursor - (-hallLen)|, (zCursor + -hallLen) / 2⟩]
  | zCursor, op :: rest =>
    ⟨|zCursor - op.zStart|, (zCursor + op.zStart) / 2⟩ :: hallSegsAllAux hallLen op.zEnd rest

/-- Kept wall segments for one corridor side. -/
def sideWallSegs (side : ℤ) (L rd : ℚ) (items : List Item) : List HallSeg :=
  hallSegsAux (hallLenOf items.length L) 0 (openings side L rd items)

/-- All candidate wall segments (kept and epsilon-dropped) for one side. -/
def sideWallSegsAll (side : ℤ) (L rd : ℚ) (items : List Item) : List HallSeg :=
  hallSegsAllAux (hallLenOf items.length L) 0 (openings side L rd items)

theorem hallSegsAux_eq_filter (hallLen : ℚ) : ∀ (z : ℚ) (ops : List Opening),
    hallSegsAux hallLen z ops
      = (hallSegsAllAux hallLen z ops).filter (fun s => decide (0.05 < s.len)) := by
  intro z ops
  induction ops generalizing z with
  | nil =>
    by_cases h : (0.05 : ℚ) < |z - (-hallLen)|
    · rw [hallSegsAux, hallSegsAllAux, if_pos h, List.filter_cons, List.filter_nil]
      rw [sub_neg_eq_add] at h
      simp [h]
    · rw [hallSegsAux, hallSegsAllAux, if_neg h, List.filter_cons, List.filter_nil]
      rw [sub_neg_eq_add] at h
      simp [h]
  | cons op rest ih =>
    by_cases h : (0.05 : ℚ) < |z - op.zStart|
    · rw [hallSegsAux, hallSegsAllAux, if_pos h, List.filter_cons]
      simp [h, ih]
    · rw [hallSegsAux, hallSegsAllAux, if_neg h, List.filter_cons]
      simp [h, ih]

theorem finalSeg_lo (h z : ℚ) (hz : -h ≤ z) :
    (⟨|z - -h|, (z + -h) / 2⟩ : HallSeg).lo = -h := by
  have habs : |z - -h| = z - -h := abs_of_nonneg (by linarith)
  simp only [HallSeg.lo, habs]; ring

theorem finalSeg_hi (h z : ℚ) (hz : -h ≤ z) :
    (⟨|z - -h|, (z + -h) / 2⟩ : HallSeg).hi = z := by
  have habs : |z - -h| = z - -h := abs_of_nonneg (by linarith)
  simp only [HallSeg.hi, habs]; ring

theorem headSeg_lo (z zs : ℚ) (hzs : zs ≤ z) :
    (⟨|z - zs|, (z + zs) / 2⟩ : HallSeg).lo = zs := by
  have habs : |z - zs| = z - zs := abs_of_nonneg (by linarith)
  simp only [HallSeg.lo, habs]; ring

theorem headSeg_hi (z zs : ℚ) (hzs : zs ≤ z) :
    (⟨|z - zs|, (z + zs) / 2⟩ : HallSeg).hi = z := by
  have habs : |z - zs| = z - zs := abs_of_nonneg (by linarith)
  simp only [HallSeg.hi, habs]; ring

/-- Invariant threaded through the cursor walk: each opening starts at or
below the cursor, openings are internally ordered, and the chain stays above
`-hallLen`. -/
def OpsChain (hallLen : ℚ) : ℚ → List Opening → Prop
  | z, [] => -hallLen ≤ z
  | z, op :: rest => op.zStart ≤ z ∧ op.zEnd ≤ op.zStart ∧ OpsChain hallLen op.zEnd rest

theorem OpsChain.le_cursor (hallLen : ℚ) : ∀ (z : ℚ) (ops : List Opening),
    OpsChain hallLen z ops → -hallLen ≤ z := by
  intro z ops
  induction ops generalizing z with
  | nil => intro h; exact h
  | cons op rest ih =>
    intro h
    have h3 := ih op.zEnd h.2.2
    linarith [h.1, h.2.1]

theorem OpsChain.zStart_le (hallLen : ℚ) : ∀ (z : ℚ) (ops : List Opening),
    OpsChain hallLen z ops → ∀ op ∈ ops, op.zStart ≤ z := by
  intro z ops
  induction ops generalizing z with
  | nil => intro _ op h; simp at h
  | cons op0 rest ih =>
    intro h op hop
    rcases List.mem_cons.mp hop with rfl | hmem
    · exact h.1
    · have := ih op0.zEnd h.2.2 op hmem
      linarith [h.1, h.2.1]

theorem hallSegsAllAux_bounds (hallLen : ℚ) : ∀ (z : ℚ) (ops : List Opening),
    OpsChain hallLen z ops → ∀ s ∈ hallSegsAllAux hallLen z ops,
      s.lo ≤ s.hi ∧ -hallLen ≤ s.lo ∧ s.hi ≤ z := by
  intro z ops
  induction ops generalizing z with
  | nil =>
    intro hch s hs
    have hz : -hallLen ≤ z := hch
    simp only [hallSegsAllAux, List.mem_singleton] at hs
    subst hs
    rw [finalSeg_lo hallLen z hz, finalSeg_hi hallLen z hz]
    exact ⟨hz, le_refl _, le_refl _⟩
  | cons op rest ih =>
    intro hch s hs
    obtain ⟨h1, h2, h3⟩ := hch
    simp only [hallSegsAllAux, List.mem_cons] at hs
    rcases hs with rfl | hmem
    · rw [headSeg_lo z op.zStart h1, headSeg_hi z op.zStart h1]
      have := OpsChain.le_cursor hallLen op.zEnd rest h3
      exact ⟨h1, by linarith, le_refl _⟩
    · have := ih op.zEnd h3 s hmem
      exact ⟨this.1, this.2.1, by linarith [this.2.2, h1, h2]⟩

theorem hallSegsAllAux_cover (hallLen : ℚ) : ∀ (z : ℚ) (ops : List Opening),
    OpsChain hallLen z ops → ∀ t : ℚ, -hallLen ≤ t → t ≤ z →
      (∃ op ∈ ops, op.zEnd ≤ t ∧ t ≤ op.zStart) ∨
      (∃ s ∈ hallSegsAllAux hallLen z ops, s.lo ≤ t ∧ t ≤ s.hi) := by
  intro z ops
  induction ops generalizing z with
  | nil =>
    intro hch t ht1 ht2
    have hz : -hallLen ≤ z := hch
    right
    rw [hallSegsAllAux]
    exact ⟨_, List.mem_singleton.mpr rfl,
      by rw [finalSeg_lo hallLen z hz]; exact ht1,
      by rw [finalSeg_hi hallLen z hz]; exact ht2⟩
  | cons op rest ih =>
    intro hch t ht1 ht2
    obtain ⟨h1, h2, h3⟩ := hch
    by_cases hcase1 : op.zStart ≤ t
    · right
      rw [hallSegsAllAux]
      exact ⟨_, List.mem_cons_self _ _,
        by rw [headSeg_lo z op.zStart h1]; exact hcase1,
        by rw [headSeg_hi z op.zStart h1]; exact ht2⟩
    · by_cases hcase2 : op.zEnd ≤ t
      · exact Or.inl ⟨op, List.mem_cons_self _ _, hcase2, le_of_not_le hcase1⟩
      · have hrec := ih op.zEnd h3 t ht1 (le_of_not_le hcase2)
        rcases hrec with ⟨op', hop', hb⟩ | ⟨s, hs, hb⟩
        · exact Or.inl ⟨op', List.mem_cons_of_mem _ hop', hb⟩
        · exact Or.inr ⟨s, by rw [hallSegsAllAux]; exact List.mem_cons_of_mem _ hs, hb⟩

theorem hallSegsAllAux_pairwise (hallLen : ℚ) : ∀ (z : ℚ) (ops : List Opening),
    OpsChain hallLen z ops →
      (hallSegsAllAux hallLen z ops).Pairwise (fun a b => b.hi ≤ a.lo) := by
  intro z ops
  induction ops generalizing z with
  | nil => intro _; simp [hallSegsAllAux]
  | cons op rest ih =>
    intro hch
    obtain ⟨h1, h2, h3⟩ := hch
    rw [hallSegsAllAux]
    refine List.Pairwise.cons ?_ (ih op.zEnd h3)
    intro s hs
    have hb := hallSegsAllAux_bounds hallLen op.zEnd rest h3 s hs
    rw [headSeg_lo z op.zStart h1]
    linarith [hb.2.2]

theorem hallSegsAllAux_avoid_openings (hallLen : ℚ) : ∀ (z : ℚ) (ops : List Opening),
    OpsChain hallLen z ops → ∀ s ∈ hallSegsAllAux hallLen z ops, ∀ op ∈ ops,
      s.hi ≤ op.zEnd ∨ op.zStart ≤ s.lo := by
  intro z ops
  induction ops generalizing z with
  | nil => intro _ s _ op hop; simp at hop
  | cons op0 rest ih =>
    intro hch s hs op hop
    obtain ⟨h1, h2, h3⟩ := hch
    simp only [hallSegsAllAux, List.mem_cons] at hs
    rcases hs with rfl | hmem
    · rw [headSeg_lo z op0.zStart h1]
      rcases List.mem_cons.mp hop with rfl | hop'
      · exact Or.inr (le_refl _)
      · right
        have := OpsChain.zStart_le hallLen op0.zEnd rest h3 op hop'
        linarith
    · rcases List.mem_cons.mp hop with rfl | hop'
      · left
        have hb := hallSegsAllAux_bounds hallLen op.zEnd rest h3 s hmem
        exact hb.2.2
      · exact ih op0.zEnd h3 s hmem op hop'

/-- `sideOf` alternates between consecutive indices. -/
theorem sideOf_succ (i : ℕ) : sideOf (i + 1) = -sideOf i := by
  rcases Nat.mod_two_eq_zero_or_one i with h | h <;>
    simp [sideOf, Nat.succ_mod_two_eq_zero_iff, Nat.succ_mod_two_eq_one_iff, h]

theorem sideOf_mem (i : ℕ) : sideOf i = 1 ∨ sideOf i = -1 := by
  rcases Nat.mod_two_eq_zero_or_one i with h | h <;> simp [sideOf, h]

/-- Index of the next slot at or after `i` that lies on `side`. -/
def nextSel (side : ℤ) (i : ℕ) : ℕ := if sideOf i = side then i else i + 1

theorem openingsRaw_chain (side : ℤ) (L rd h : ℚ)
    (hside : side = 1 ∨ side = -1) (hL : 0 < L) (hrd : 0 ≤ rd) (h2L : rd ≤ 2 * L) :
    ∀ (items : List Item) (i : ℕ) (z : ℚ),
      -((nextSel side i : ℚ) + 1) * L + rd / 2 ≤ z →
      ((i + items.length : ℚ) + 2) * L - rd / 2 ≤ h →
      OpsChain h z (openingsRaw side L rd i items) := by
  intro items
  induction items with
  | nil =>
    intro i z hz hh
    have hns : (nextSel side i : ℚ) ≤ (i : ℚ) + 1 := by
      unfold nextSel
      split <;> push_cast <;> linarith
    show -h ≤ z
    simp only [List.length_nil, Nat.cast_zero] at hh
    nlinarith [hns, hz, hh, hL]
  | cons it rest ih =>
    intro i z hz hh
    by_cases hsel : sideOf i = side
    · rw [openingsRaw, if_pos hsel]
      have hns : nextSel side i = i := by unfold nextSel; rw [if_pos hsel]
      rw [hns] at hz
      refine ⟨?_, ?_, ?_⟩
      · simp only [slotZ]; linarith
      · simp only [slotZ]; linarith
      · have hsel' : sideOf (i + 1) ≠ side := by
          rw [sideOf_succ]
          rcases hside with rfl | rfl <;> rcases sideOf_mem i with hs | hs <;>
            simp [hs] at hsel ⊢
        have hns' : nextSel side (i + 1) = i + 2 := by
          unfold nextSel; rw [if_neg hsel']
        apply ih (i + 1)
        · rw [hns']
          simp only [slotZ]
          push_cast
          linarith
        · simp only [List.length_cons] at hh
          push_cast at hh ⊢
          linarith
    · rw [openingsRaw, if_neg hsel]
      have hns : nextSel side i = i + 1 := by unfold nextSel; rw [if_neg hsel]
      rw [hns] at hz
      have hsel' : sideOf (i + 1) = side := by
        rw [sideOf_succ]
        rcases hside with rfl | rfl <;> rcases sideOf_mem i with hs | hs <;>
          simp [hs] at hsel ⊢
      have hns' : nextSel side (i + 1) = i + 1 := by
        unfold nextSel; rw [if_pos hsel']
      apply ih (i + 1)
      · rw [hns']; push_cast at hz ⊢; linarith
      · simp only [List.length_cons] at hh
        push_cast at hh ⊢
        linarith

/-- Every opening generated from start index `i` starts at or below the slot
of index `i`. -/
theorem openingsRaw_zStart_le (side : ℤ) (L rd : ℚ) (hL : 0 ≤ L) :
    ∀ (items : List Item) (i : ℕ), ∀ op ∈ openingsRaw side L rd i items,
      op.zStart ≤ -((i : ℚ) + 1) * L + rd / 2 := by
  intro items
  induction items with
  | nil => intro i op hop; simp [openingsRaw] at hop
  | cons it rest ih =>
    intro i op hop
    rw [openingsRaw] at hop
    split at hop
    · rcases List.mem_cons.mp hop with rfl | hmem
      · simp only [slotZ]
        apply le_of_eq
        ring
      · have := ih (i + 1) op hmem
        push_cast at this ⊢
        nlinarith [hL]
    · have := ih (i + 1) op hop
      push_cast at this ⊢
      nlinarith [hL]

theorem openingsRaw_sorted (side : ℤ) (L rd : ℚ) (hL : 0 < L) :
    ∀ (items : List Item) (i : ℕ),
      (openingsRaw side L rd i items).Sorted (fun a b => b.zStart ≤ a.zStart) := by
  intro items
  induction items with
  | nil => intro i; simp [openingsRaw]
  | cons it rest ih =>
    intro i
    rw [openingsRaw]
    split
    · refine List.Pairwise.cons ?_ (ih (i + 1))
      intro op hop
      have := openingsRaw_zStart_le side L rd (le_of_lt hL) rest (i + 1) op hop
      simp only [slotZ]
      push_cast at this ⊢
      nlinarith [hL]
    · exact ih (i + 1)

/-- Sorting the already-sorted raw opening list is the identity. -/
theorem openings_eq_raw (side : ℤ) (L rd : ℚ) (items : List Item) (hL : 0 < L) :
    openings side L rd items = openingsRaw side L rd 0 items :=
  List.Sorted.insertionSort_eq (openingsRaw_sorted side L rd hL items 0)

theorem openingsRaw_length_eq (side : ℤ) (L rd : ℚ) :
    ∀ (items : List Item) (i : ℕ),
      (openingsRaw side L rd i items).length
        = (List.range items.length).countP (fun j => decide (sideOf (i + j) = side)) := by
  intro items
  induction items with
  | nil => intro i; simp [openingsRaw]
  | cons it rest ih =>
    intro i
    have hc : List.countP ((fun j => decide (sideOf (i + j) = side)) ∘ Nat.succ)
          (List.range rest.length)
        = List.countP (fun j => decide (sideOf ((i + 1) + j) = side))
          (List.range rest.length) := by
      apply List.countP_congr
      intro j _
      simp only [Function.comp]
      have harg : i + Nat.succ j = (i + 1) + j := by omega
      rw [harg]
    rw [List.length_cons, List.range_succ_eq_map, List.countP_cons, List.countP_map, hc]
    rw [openingsRaw]
    split
    · rw [List.length_cons, ih (i + 1)]
      simp_all
    · rw [ih (i + 1)]
      simp_all

/-- The cursor-walk invariant holds for the sorted opening list of either
side under the generator's parameter regime. -/
theorem openings_chain (side : ℤ) (L rd : ℚ) (items : List Item)
    (hside : side = 1 ∨ side = -1) (hL : 0 < L) (hrd : 0 ≤ rd) (h2L : rd ≤ 2 * L) :
    OpsChain (hallLenOf items.length L) 0 (openings side L rd items) := by
  rw [openings_eq_raw side L rd items hL]
  apply openingsRaw_chain side L rd (hallLenOf items.length L) hside hL hrd h2L items 0 0
  · unfold nextSel
    split <;> push_cast <;> linarith
  · unfold hallLenOf
    push_cast
    linarith

/-- Claim C2: for every item list and each corridor side (under the
generator's parameter regime `0 < L`, `0 ≤ rd ≤ 2L`), the side-wall builder
computes one opening per room on that side, the kept segments never overlap,
the openings together with all candidate segments exactly tile
`[-corridorLength, 0]`, every candidate segment stays inside the corridor and
avoids every opening's interior, and exactly the candidates of length
`≤ 0.05` are dropped. -/
theorem buildHallwaySideWalls_tiling (side : ℤ) (L rd : ℚ) (items : List Item)
    (hside : side = 1 ∨ side = -1) (hL : 0 < L) (hrd : 0 ≤ rd) (h2L : rd ≤ 2 * L) :
    (openings side L rd items).length
        = (List.range items.length).countP (fun j => decide (sideOf j = side)) ∧
    (sideWallSegs side L rd items).Pairwise (fun a b => b.hi ≤ a.lo) ∧
    (∀ t : ℚ, -hallLenOf items.length L ≤ t → t ≤ 0 →
      (∃ op ∈ openings side L rd items, op.zEnd ≤ t ∧ t ≤ op.zStart) ∨
      ∃ s ∈ sideWallSegsAll side L rd items, s.lo ≤ t ∧ t ≤ s.hi) ∧
    (∀ s ∈ sideWallSegsAll side L rd items,
      s.lo ≤ s.hi ∧ -hallLenOf items.length L ≤ s.lo ∧ s.hi ≤ 0 ∧
      ∀ op ∈ openings side L rd items, s.hi ≤ op.zEnd ∨ op.zStart ≤ s.lo) ∧
    sideWallSegs side L rd items
        = (sideWallSegsAll side L rd items).filter (fun s => decide (0.05 < s.len)) := by
  have hchain : OpsChain (hallLenOf items.length L) 0 (openings side L rd items) :=
    openings_chain side L rd items hside hL hrd h2L
  refine ⟨?_, ?_, ?_, ?_, ?_⟩
  · rw [openings_eq_raw side L rd items hL, openingsRaw_length_eq side L rd items 0]
    apply List.countP_congr
    intro j _
    norm_num
  · rw [sideWallSegs, hallSegsAux_eq_filter]
    exact List.Pairwise.sublist (List.filter_sublist _)
      (hallSegsAllAux_pairwise (hallLenOf items.length L) 0 (openings side L rd items) hchain)
  · intro t ht1 ht2
    exact hallSegsAllAux_cover (hallLenOf items.length L) 0 (openings side L rd items)
      hchain t ht1 ht2
  · intro s hs
    have hb := hallSegsAllAux_bounds (hallLenOf items.length L) 0
      (openings side L rd items) hchain s hs
    exact ⟨hb.1, hb.2.1, hb.2.2,
      hallSegsAllAux_avoid_openings (hallLenOf items.length L) 0
        (openings side L rd items) hchain s hs⟩
  · exact hallSegsAux_eq_filter _ _ _

/-- Three concrete items used by the tiling witness. -/
def demoItems : List Item := [⟨"a", 10⟩, ⟨"b", 10⟩, ⟨"c", 10⟩]

/-- Witness for C2: the tiling theorem applied at the shipped configuration
(`L = 10`, `rd = 10`) on a concrete three-item list, side `+1`. -/
theorem buildHallwaySideWalls_tiling_witness :
    (openings 1 10 10 demoItems).length
        = (List.range demoItems.length).countP (fun j => decide (sideOf j = 1)) ∧
    (sideWallSegs 1 10 10 demoItems).Pairwise (fun a b => b.hi ≤ a.lo) ∧
    (∀ t : ℚ, -hallLenOf demoItems.length 10 ≤ t → t ≤ 0 →
      (∃ op ∈ openings 1 10 10 demoItems, op.zEnd ≤ t ∧ t ≤ op.zStart) ∨
      ∃ s ∈ sideWallSegsAll 1 10 10 demoItems, s.lo ≤ t ∧ t ≤ s.hi) ∧
    (∀ s ∈ sideWallSegsAll 1 10 10 demoItems,
      s.lo ≤ s.hi ∧ -hallLenOf demoItems.length 10 ≤ s.lo ∧ s.hi ≤ 0 ∧
      ∀ op ∈ openings 1 10 10 demoItems, s.hi ≤ op.zEnd ∨ op.zStart ≤ s.lo) ∧
    sideWallSegs 1 10 10 demoItems
        = (sideWallSegsAll 1 10 10 demoItems).filter (fun s => decide (0.05 < s.len)) :=
  buildHallwaySideWalls_tiling 1 10 10 demoItems (Or.inl rfl)
    (by norm_num) (by norm_num) (by norm_num)

/-! Locality detector (`getPlayerRoom` in src/main.js): first room of
`roomMeta` whose rectangle strictly contains the player's XZ position
(`px > cx - hw && px < cx + hw && pz > cz - rd/2 && pz < cz + rd/2`). -/

/-- A horizontal (XZ) position. -/
structure PosQ where
  x : ℚ
  z : ℚ
deriving DecidableEq, Repr

/-- Strict (open-rectangle) containment used by the code. -/
def openContains (rd : ℚ) (p : PosQ) (rm : Room) : Prop :=
  rm.centerX - rm.rw / 2 < p.x ∧ p.x < rm.centerX + rm.rw / 2 ∧
  rm.centerZ - rd / 2 < p.z ∧ p.z < rm.centerZ + rd / 2

instance (rd : ℚ) (p : PosQ) (rm : Room) : Decidable (openContains rd p rm) := by
  unfold openContains; infer_instance

/-- The boolean test in `getPlayerRoom`'s loop, in the code's order. -/
def roomContains (rd : ℚ) (p : PosQ) (rm : Room) : Bool :=
  decide (rm.centerX - rm.rw / 2 < p.x) && decide (p.x < rm.centerX + rm.rw / 2) &&
  decide (rm.centerZ - rd / 2 < p.z) && decide (p.z < rm.centerZ + rd / 2)

theorem roomContains_iff (rd : ℚ) (p : PosQ) (rm : Room) :
    roomContains rd p rm = true ↔ openContains rd p rm := by
  simp [roomContains, openContains, and_assoc]

/-- `getPlayerRoom(pos, rooms, museumCfg)`: the first room containing the
position, else `none` (corridor/lobby). -/
def getPlayerRoom (p : PosQ) (rooms : List Room) (rd : ℚ) : Option Room :=
  rooms.find? (roomContains rd p)

/-- Half-open containment as the spec words it
(`[cx-hw, cx+hw) × [cz-rd/2, cz+rd/2)`); written for comparison against the
code's strict test, not taken from the source. -/
def specHalfOpenContains (rd : ℚ) (p : PosQ) (rm : Room) : Prop :=
  rm.centerX - rm.rw / 2 ≤ p.x ∧ p.x < rm.centerX + rm.rw / 2 ∧
  rm.centerZ - rd / 2 ≤ p.z ∧ p.z < rm.centerZ + rd / 2

theorem find?_eq_some_decomp {α : Type} (p : α → Bool) :
    ∀ (l : List α) (a : α),
      l.find? p = some a ↔
        ∃ l1 l2, l = l1 ++ a :: l2 ∧ (∀ x ∈ l1, p x = false) ∧ p a = true := by
  intro l a
  induction l with
  | nil =>
    simp only [List.find?_nil]
    constructor
    · intro h; cases h
    · rintro ⟨l1, l2, h, -, -⟩
      exact absurd h (by simp)
  | cons b rest ih =>
    cases hb : p b
    · rw [List.find?_cons_of_neg _ (by simp [hb])]
      constructor
      · intro h
        obtain ⟨l1, l2, rfl, hl1, ha⟩ := (ih).mp h
        exact ⟨b :: l1, l2, rfl, by
          intro x hx
          rcases List.mem_cons.mp hx with rfl | hx'
          · exact hb
          · exact hl1 x hx', ha⟩
      · rintro ⟨l1, l2, hdec, hl1, ha⟩
        cases l1 with
        | nil =>
          simp only [List.nil_append, List.cons.injEq] at hdec
          rw [hdec.1] at hb
          rw [hb] at ha
          cases ha
        | cons c l1' =>
          simp only [List.cons_append, List.cons.injEq] at hdec
          refine (ih).mpr ⟨l1', l2, hdec.2, ?_, ha⟩
          intro x hx
          exact hl1 x (by simp [hx])
    · rw [List.find?_cons_of_pos _ hb]
      constructor
      · intro h
        obtain rfl : b = a := by injection h
        exact ⟨[], rest, rfl, by simp, hb⟩
      · rintro ⟨l1, l2, hdec, hl1, ha⟩
        cases l1 with
        | nil =>
          simp only [List.nil_append, List.cons.injEq] at hdec
          rw [hdec.1]
        | cons c l1' =>
          simp only [List.cons_append, List.cons.injEq] at hdec
          rw [← hdec.1] at hl1
          have := hl1 b (by simp)
          rw [this] at hb
          cases hb

/-- Counterexample to claim C5 as stated: position `(4, -10)` lies exactly on
the low-`x` boundary of the room centred at `(9, -10)` with width `10`; the
spec's half-open rectangle contains it, but `getPlayerRoom` (strict
inequalities) classifies it as corridor (`none`). -/
theorem getPlayerRoom_boundary_cex :
    specHalfOpenContains 10 ⟨4, -10⟩ ⟨"a", 1, 9, -10, 10⟩ ∧
    getPlayerRoom ⟨4, -10⟩ [⟨"a", 1, 9, -10, 10⟩] 10 = none := by
  constructor
  · refine ⟨by norm_num, by norm_num, by norm_num, by norm_num⟩
  · have hfalse : roomContains 10 ⟨4, -10⟩ ⟨"a", 1, 9, -10, 10⟩ = false := by
      simp only [roomContains]
      norm_num
    rw [getPlayerRoom, List.find?_cons_of_neg _ (by simp [hfalse]), List.find?_nil]

/-- Claim C5 (amended): `getPlayerRoom` returns the first room in list order
whose open rectangle `(cx-hw, cx+hw) × (cz-rd/2, cz+rd/2)` strictly contains
the position, and `none` when no room's open rectangle does; positions lying
exactly on a room's low-`x` or low-`z` boundary are not inside that room. -/
theorem getPlayerRoom_first_open (p : PosQ) (rooms : List Room) (rd : ℚ) :
    (getPlayerRoom p rooms rd = none ↔ ∀ rm ∈ rooms, ¬ openContains rd p rm) ∧
    (∀ rm : Room, getPlayerRoom p rooms rd = some rm ↔
      ∃ l1 l2, rooms = l1 ++ rm :: l2 ∧
        (∀ r ∈ l1, ¬ openContains rd p r) ∧ openContains rd p rm) ∧
    (∀ rm ∈ rooms, (p.x = rm.centerX - rm.rw / 2 ∨ p.z = rm.centerZ - rd / 2) →
      ¬ openContains rd p rm) := by
  refine ⟨?_, ?_, ?_⟩
  · rw [getPlayerRoom, List.find?_eq_none]
    constructor
    · intro h rm hm hc
      exact h rm hm ((roomContains_iff rd p rm).mpr hc)
    · intro h rm hm hc
      exact h rm hm ((roomContains_iff rd p rm).mp hc)
  · intro rm
    rw [getPlayerRoom, find?_eq_some_decomp]
    constructor
    · rintro ⟨l1, l2, rfl, hl1, ha⟩
      refine ⟨l1, l2, rfl, ?_, (roomContains_iff rd p rm).mp ha⟩
      intro r hr hc
      have := hl1 r hr
      rw [(roomContains_iff rd p r).mpr hc] at this
      cases this
    · rintro ⟨l1, l2, rfl, hl1, ha⟩
      refine ⟨l1, l2, rfl, ?_, (roomContains_iff rd p rm).mpr ha⟩
      intro r hr
      cases hcr : roomContains rd p r
      · rfl
      · exact absurd ((roomContains_iff rd p r).mp hcr) (hl1 r hr)
  · rintro rm _ (hx | hz) hc
    · rcases hc with ⟨h1, -, -, -⟩; rw [hx] at h1; exact lt_irrefl _ h1
    · rcases hc with ⟨-, -, h3, -⟩; rw [hz] at h3; exact lt_irrefl _ h3

/-- Witness for C5's amended theorem: position `(9, -10)` (the room centre)
is detected as inside the single demo room. -/
theorem getPlayerRoom_first_open_witness :
    getPlayerRoom ⟨9, -10⟩ [⟨"a", 1, 9, -10, 10⟩] 10 = some ⟨"a", 1, 9, -10, 10⟩ :=
  ((getPlayerRoom_first_open ⟨9, -10⟩ [⟨"a", 1, 9, -10, 10⟩] 10).2.1 _).mpr
    ⟨[], [], rfl, by simp, by norm_num, by norm_num, by norm_num, by norm_num⟩

/-! Collision resolver (`resolveCollisions` in src/main.js): circle vs
axis-aligned boxes in the XZ plane, three iterations over the box list.
`Math.sqrt` forces the embedding over `ℝ`. -/

/-- An axis-aligned blocking volume's XZ footprint (`THREE.Box3` min/max; the
resolver only reads the `x`/`z` components). -/
structure Box2 where
  minX : ℝ
  maxX : ℝ
  minZ : ℝ
  maxZ : ℝ

/-- A player position in the XZ plane. -/
structure Pos2 where
  x : ℝ
  z : ℝ

/-- Well-formedness of a `THREE.Box3`-derived box: `min ≤ max` per axis. -/
def BoxWF (b : Box2) : Prop := b.minX ≤ b.maxX ∧ b.minZ ≤ b.maxZ

/-- Nearest-point clamp on the `x` axis:
`Math.max(box.min.x, Math.min(pos.x, box.max.x))`. -/
noncomputable def nearX (p : Pos2) (b : Box2) : ℝ := max b.minX (min p.x b.maxX)

/-- Nearest-point clamp on the `z` axis. -/
noncomputable def nearZ (p : Pos2) (b : Box2) : ℝ := max b.minZ (min p.z b.maxZ)

/-- Squared distance from the player to the nearest point of the box
(`dx*dx + dz*dz`). -/
noncomputable def distSq (p : Pos2) (b : Box2) : ℝ :=
  (p.x - nearX p b) ^ 2 + (p.z - nearZ p b) ^ 2

/-- Box center `x` (`cx` in the inside-the-box branch). -/
noncomputable def boxCX (b : Box2) : ℝ := (b.minX + b.maxX) / 2

/-- Box center `z`. -/
noncomputable def boxCZ (b : Box2) : ℝ := (b.minZ + b.maxZ) / 2

/-- Box half-width (`hw`). -/
noncomputable def boxHW (b : Box2) : ℝ := (b.maxX - b.minX) / 2

/-- Box half-depth (`hd`). -/
noncomputable def boxHD (b : Box2) : ℝ := (b.maxZ - b.minZ) / 2

/-- Required `x` translation to clear the box edge plus radius
(`ox = hw + radius - Math.abs(pos.x - cx)`). -/
noncomputable def pushOX (r : ℝ) (p : Pos2) (b : Box2) : ℝ :=
  boxHW b + r - |p.x - boxCX b|

/-- Required `z` translation (`oz = hd + radius - Math.abs(pos.z - cz)`). -/
noncomputable def pushOZ (r : ℝ) (p : Pos2) (b : Box2) : ℝ :=
  boxHD b + r - |p.z - boxCZ b|

/-- One box step of the resolver: push the circle out of the box if it
overlaps, radially when the center is outside (`distSq > 0.0001`), along the
axis of smaller `ox`/`oz` otherwise — the `ox < oz` comparison sends exact
ties to the `z` branch. -/
noncomputable def resolveBox (r : ℝ) (p : Pos2) (b : Box2) : Pos2 :=
  if distSq p b < r ^ 2 then
    if 0.0001 < distSq p b then
      ⟨p.x + (p.x - nearX p b) / Real.sqrt (distSq p b) * (r - Real.sqrt (distSq p b)),
       p.z + (p.z - nearZ p b) / Real.sqrt (distSq p b) * (r - Real.sqrt (distSq p b))⟩
    else
      if pushOX r p b < pushOZ r p b then
        ⟨p.x + (if boxCX b < p.x then pushOX r p b else -pushOX r p b), p.z⟩
      else
        ⟨p.x, p.z + (if boxCZ b < p.z then pushOZ r p b else -pushOZ r p b)⟩
  else p

/-- One full iteration of the inner `for (const box of boxes)` loop. -/
noncomputable def resolvePass (r : ℝ) (p : Pos2) (boxes : List Box2) : Pos2 :=
  boxes.foldl (fun q b => resolveBox r q b) p

/-- `resolveCollisions(pos, boxes, radius)`: three iterations over all
boxes. -/
noncomputable def resolveCollisions (r : ℝ) (p : Pos2) (boxes : List Box2) : Pos2 :=
  resolvePass r (resolvePass r (resolvePass r p boxes) boxes) boxes

/-- Closed form of the inside-the-box branch: the hit axis is pushed to the
box edge plus radius, the other coordinate is unchanged. -/
theorem resolveBox_inside_cases (r : ℝ) (p : Pos2) (b : Box2)
    (hover : distSq p b < r ^ 2) (hin : distSq p b ≤ 0.0001) :
    (pushOX r p b < pushOZ r p b ∧
      resolveBox r p b
        = ⟨if boxCX b < p.x then boxCX b + (boxHW b + r) else boxCX b - (boxHW b + r),
           p.z⟩) ∨
    (pushOZ r p b ≤ pushOX r p b ∧
      resolveBox r p b
        = ⟨p.x,
           if boxCZ b < p.z then boxCZ b + (boxHD b + r) else boxCZ b - (boxHD b + r)⟩) := by
  rw [resolveBox, if_pos hover, if_neg (not_lt.mpr hin)]
  by_cases hcmp : pushOX r p b < pushOZ r p b
  · left
    refine ⟨hcmp, ?_⟩
    rw [if_pos hcmp]
    by_cases hdir : boxCX b < p.x
    · rw [if_pos hdir, if_pos hdir]
      have habs : |p.x - boxCX b| = p.x - boxCX b := abs_of_pos (by linarith)
      simp only [pushOX, habs]
      congr 1
      ring
    · rw [if_neg hdir, if_neg hdir]
      have habs : |p.x - boxCX b| = -(p.x - boxCX b) :=
        abs_of_nonpos (by push_neg at hdir; linarith)
      simp only [pushOX, habs]
      congr 1
      ring
  · right
    refine ⟨le_of_not_lt hcmp, ?_⟩
    rw [if_neg hcmp]
    by_cases hdir : boxCZ b < p.z
    · rw [if_pos hdir, if_pos hdir]
      have habs : |p.z - boxCZ b| = p.z - boxCZ b := abs_of_pos (by linarith)
      simp only [pushOZ, habs]
      congr 1
      ring
    · rw [if_neg hdir, if_neg hdir]
      have habs : |p.z - boxCZ b| = -(p.z - boxCZ b) :=
        abs_of_nonpos (by push_neg at hdir; linarith)
      simp only [pushOZ, habs]
      congr 1
      ring

/-- Counterexample to claim C4 as stated: at the center of the unit-halfwidth
square box both required translations are exactly equal
(`ox = oz = 1.35`), and the resolver pushes along the `z` axis (output
`(0, -1.35)`), not the claimed `x` axis. -/
theorem resolveBox_tie_cex :
    pushOX (0.35 : ℝ) ⟨0, 0⟩ ⟨-1, 1, -1, 1⟩ = pushOZ (0.35 : ℝ) ⟨0, 0⟩ ⟨-1, 1, -1, 1⟩ ∧
    resolveBox (0.35 : ℝ) ⟨0, 0⟩ ⟨-1, 1, -1, 1⟩ = ⟨0, -1.35⟩ := by
  have hnx : nearX ⟨0, 0⟩ ⟨-1, 1, -1, 1⟩ = 0 := by
    unfold nearX
    rw [min_eq_left (by norm_num : (0 : ℝ) ≤ 1), max_eq_right (by norm_num : (-1 : ℝ) ≤ 0)]
  have hnz : nearZ ⟨0, 0⟩ ⟨-1, 1, -1, 1⟩ = 0 := by
    unfold nearZ
    rw [min_eq_left (by norm_num : (0 : ℝ) ≤ 1), max_eq_right (by norm_num : (-1 : ℝ) ≤ 0)]
  have hd : distSq ⟨0, 0⟩ ⟨-1, 1, -1, 1⟩ = 0 := by
    unfold distSq
    rw [hnx, hnz]
    norm_num
  have hox : pushOX (0.35 : ℝ) ⟨0, 0⟩ ⟨-1, 1, -1, 1⟩ = 1.35 := by
    unfold pushOX boxHW boxCX
    norm_num
  have hoz : pushOZ (0.35 : ℝ) ⟨0, 0⟩ ⟨-1, 1, -1, 1⟩ = 1.35 := by
    unfold pushOZ boxHD boxCZ
    norm_num
  refine ⟨by rw [hox, hoz], ?_⟩
  rw [resolveBox, if_pos (by rw [hd]; norm_num), if_neg (by rw [hd]; norm_num),
    if_neg (by rw [hox, hoz]; norm_num)]
  rw [if_neg (by show ¬ boxCZ ⟨-1, 1, -1, 1⟩ < 0; unfold boxCZ; norm_num), hoz]
  norm_num

/-- Claim C4 (amended): in the center-inside branch (`distSq ≤ 0.0001` while
overlapping) the resolver pushes along the axis with the strictly smaller
required translation, landing at the box edge plus radius on that axis and
leaving the other coordinate unchanged; an exact tie `ox = oz` is broken in
favour of the `z` axis. -/
theorem resolveBox_inside_push (r : ℝ) (p : Pos2) (b : Box2)
    (hwf : BoxWF b) (hr : 0 < r)
    (hover : distSq p b < r ^ 2) (hin : distSq p b ≤ 0.0001) :
    (pushOX r p b < pushOZ r p b →
      (resolveBox r p b).z = p.z ∧ |(resolveBox r p b).x - boxCX b| = boxHW b + r) ∧
    (pushOZ r p b ≤ pushOX r p b →
      (resolveBox r p b).x = p.x ∧ |(resolveBox r p b).z - boxCZ b| = boxHD b + r) := by
  have hhw : 0 ≤ boxHW b := by
    unfold boxHW
    linarith [hwf.1]
  have hhd : 0 ≤ boxHD b := by
    unfold boxHD
    linarith [hwf.2]
  rcases resolveBox_inside_cases r p b hover hin with ⟨hlt, heq⟩ | ⟨hle, heq⟩
  · constructor
    · intro _
      rw [heq]
      refine ⟨rfl, ?_⟩
      by_cases hdir : boxCX b < p.x
      · rw [if_pos hdir]
        rw [show boxCX b + (boxHW b + r) - boxCX b = boxHW b + r by ring]
        exact abs_of_nonneg (by linarith)
      · rw [if_neg hdir]
        rw [show boxCX b - (boxHW b + r) - boxCX b = -(boxHW b + r) by ring]
        rw [abs_neg]
        exact abs_of_nonneg (by linarith)
    · intro hle
      exact absurd hlt (not_lt.mpr hle)
  · constructor
    · intro hlt
      exact absurd hlt (not_lt.mpr hle)
    · intro _
      rw [heq]
      refine ⟨rfl, ?_⟩
      by_cases hdir : boxCZ b < p.z
      · rw [if_pos hdir]
        rw [show boxCZ b + (boxHD b + r) - boxCZ b = boxHD b + r by ring]
        exact abs_of_nonneg (by linarith)
      · rw [if_neg hdir]
        rw [show boxCZ b - (boxHD b + r) - boxCZ b = -(boxHD b + r) by ring]
        rw [abs_neg]
        exact abs_of_nonneg (by linarith)

/-- Witness for C4's amended theorem: a center slightly right of the box
center is pushed out along `x` (the strictly smaller translation) to the box
edge plus radius, with `z` unchanged. -/
theorem resolveBox_inside_push_witness :
    (resolveBox (0.35 : ℝ) ⟨1/5, 0⟩ ⟨-1, 1, -1, 1⟩).z = 0 ∧
    |(resolveBox (0.35 : ℝ) ⟨1/5, 0⟩ ⟨-1, 1, -1, 1⟩).x - boxCX ⟨-1, 1, -1, 1⟩|
      = boxHW ⟨-1, 1, -1, 1⟩ + 0.35 := by
  have hnx : nearX ⟨1/5, 0⟩ ⟨-1, 1, -1, 1⟩ = 1/5 := by
    unfold nearX
    rw [min_eq_left (by norm_num : (1/5 : ℝ) ≤ 1),
      max_eq_right (by norm_num : (-1 : ℝ) ≤ 1/5)]
  have hnz : nearZ ⟨1/5, 0⟩ ⟨-1, 1, -1, 1⟩ = 0 := by
    unfold nearZ
    rw [min_eq_left (by norm_num : (0 : ℝ) ≤ 1), max_eq_right (by norm_num : (-1 : ℝ) ≤ 0)]
  have hd : distSq ⟨1/5, 0⟩ ⟨-1, 1, -1, 1⟩ = 0 := by
    unfold distSq
    rw [hnx, hnz]
    norm_num
  have h := resolveBox_inside_push 0.35 ⟨1/5, 0⟩ ⟨-1, 1, -1, 1⟩
    ⟨by norm_num, by norm_num⟩ (by norm_num) (by rw [hd]; norm_num) (by rw [hd]; norm_num)
  apply h.1
  unfold pushOX pushOZ boxHW boxHD boxCX boxCZ
  rw [show |(⟨1/5, 0⟩ : Pos2).x - (-1 + 1) / 2| = 1/5 by norm_num,
    show |(⟨1/5, 0⟩ : Pos2).z - (-1 + 1) / 2| = 0 by norm_num]
  norm_num

theorem nearX_congr (p q : Pos2) (b : Box2) (h : p.x = q.x) : nearX p b = nearX q b := by
  unfold nearX
  rw [h]

theorem nearZ_congr (p q : Pos2) (b : Box2) (h : p.z = q.z) : nearZ p b = nearZ q b := by
  unfold nearZ
  rw [h]

theorem nearX_cases (p : Pos2) (b : Box2) (hwf : BoxWF b) :
    (p.x < b.minX ∧ nearX p b = b.minX) ∨ (b.maxX < p.x ∧ nearX p b = b.maxX) ∨
      nearX p b = p.x := by
  unfold nearX
  rcases lt_or_le p.x b.minX with h1 | h1
  · exact Or.inl ⟨h1, by
      rw [min_eq_left (le_trans h1.le hwf.1), max_eq_left h1.le]⟩
  · rcases lt_or_le b.maxX p.x with h2 | h2
    · exact Or.inr (Or.inl ⟨h2, by rw [min_eq_right h2.le, max_eq_right hwf.1]⟩)
    · exact Or.inr (Or.inr (by rw [min_eq_left h2, max_eq_right h1]))

theorem nearZ_cases (p : Pos2) (b : Box2) (hwf : BoxWF b) :
    (p.z < b.minZ ∧ nearZ p b = b.minZ) ∨ (b.maxZ < p.z ∧ nearZ p b = b.maxZ) ∨
      nearZ p b = p.z := by
  unfold nearZ
  rcases lt_or_le p.z b.minZ with h1 | h1
  · exact Or.inl ⟨h1, by
      rw [min_eq_left (le_trans h1.le hwf.2), max_eq_left h1.le]⟩
  · rcases lt_or_le b.maxZ p.z with h2 | h2
    · exact Or.inr (Or.inl ⟨h2, by rw [min_eq_right h2.le, max_eq_right hwf.2]⟩)
    · exact Or.inr (Or.inr (by rw [min_eq_left h2, max_eq_right h1]))

theorem nearX_of_ge_max (q : Pos2) (b : Box2) (hwf : BoxWF b) (h : b.maxX ≤ q.x) :
    nearX q b = b.maxX := by
  unfold nearX
  rw [min_eq_right h, max_eq_right hwf.1]

theorem nearX_of_le_min (q : Pos2) (b : Box2) (hwf : BoxWF b) (h : q.x ≤ b.minX) :
    nearX q b = b.minX := by
  unfold nearX
  rw [min_eq_left (le_trans h hwf.1), max_eq_left h]

theorem nearZ_of_ge_max (q : Pos2) (b : Box2) (hwf : BoxWF b) (h : b.maxZ ≤ q.z) :
    nearZ q b = b.maxZ := by
  unfold nearZ
  rw [min_eq_right h, max_eq_right hwf.2]

theorem nearZ_of_le_min (q : Pos2) (b : Box2) (hwf : BoxWF b) (h : q.z ≤ b.minZ) :
    nearZ q b = b.minZ := by
  unfold nearZ
  rw [min_eq_left (le_trans h hwf.2), max_eq_left h]

/-- After a radial push (center outside the box, overlapping), the player
sits at distance exactly `r` from the box. -/
theorem resolveBox_radial (r : ℝ) (p : Pos2) (b : Box2) (hwf : BoxWF b)
    (hr : 0 < r) (hover : distSq p b < r ^ 2) (hout : 0.0001 < distSq p b) :
    distSq (resolveBox r p b) b = r ^ 2 := by
  have hdsq_pos : 0 < distSq p b := lt_trans (by norm_num) hout
  set d := Real.sqrt (distSq p b) with hddef
  have hdpos : 0 < d := Real.sqrt_pos.mpr hdsq_pos
  have hd2 : d ^ 2 = distSq p b := Real.sq_sqrt hdsq_pos.le
  have hres : resolveBox r p b
      = ⟨p.x + (p.x - nearX p b) / d * (r - d),
         p.z + (p.z - nearZ p b) / d * (r - d)⟩ := by
    rw [resolveBox, if_pos hover, if_pos hout]
  have hxval : (resolveBox r p b).x = nearX p b + r / d * (p.x - nearX p b) := by
    rw [hres]
    field_simp
    ring
  have hzval : (resolveBox r p b).z = nearZ p b + r / d * (p.z - nearZ p b) := by
    rw [hres]
    field_simp
    ring
  have hrd : 0 < r / d := div_pos hr hdpos
  have hxnew : nearX (resolveBox r p b) b = nearX p b ∧
      (resolveBox r p b).x - nearX (resolveBox r p b) b = r / d * (p.x - nearX p b) := by
    rcases nearX_cases p b hwf with ⟨hlt, hn⟩ | ⟨hgt, hn⟩ | hn
    · have hxlt : (resolveBox r p b).x ≤ b.minX := by
        rw [hxval, hn]
        nlinarith [hrd, hlt]
      have := nearX_of_le_min (resolveBox r p b) b hwf hxlt
      rw [this, hxval, hn]
      exact ⟨rfl, by ring⟩
    · have hxgt : b.maxX ≤ (resolveBox r p b).x := by
        rw [hxval, hn]
        nlinarith [hrd, hgt]
      have := nearX_of_ge_max (resolveBox r p b) b hwf hxgt
      rw [this, hxval, hn]
      exact ⟨rfl, by ring⟩
    · have hdx0 : p.x - nearX p b = 0 := by rw [hn]; ring
      have hxeq : (resolveBox r p b).x = p.x := by
        rw [hxval, hdx0]
        ring_nf
        rw [hn]
      have hcongr := nearX_congr (resolveBox r p b) p b hxeq
      rw [hcongr, hxeq, hdx0]
      exact ⟨rfl, by ring⟩
  have hznew : nearZ (resolveBox r p b) b = nearZ p b ∧
      (resolveBox r p b).z - nearZ (resolveBox r p b) b = r / d * (p.z - nearZ p b) := by
    rcases nearZ_cases p b hwf with ⟨hlt, hn⟩ | ⟨hgt, hn⟩ | hn
    · have hzlt : (resolveBox r p b).z ≤ b.minZ := by
        rw [hzval, hn]
        nlinarith [hrd, hlt]
      have := nearZ_of_le_min (resolveBox r p b) b hwf hzlt
      rw [this, hzval, hn]
      exact ⟨rfl, by ring⟩
    · have hzgt : b.maxZ ≤ (resolveBox r p b).z := by
        rw [hzval, hn]
        nlinarith [hrd, hgt]
      have := nearZ_of_ge_max (resolveBox r p b) b hwf hzgt
      rw [this, hzval, hn]
      exact ⟨rfl, by ring⟩
    · have hdz0 : p.z - nearZ p b = 0 := by rw [hn]; ring
      have hzeq : (resolveBox r p b).z = p.z := by
        rw [hzval, hdz0]
        ring_nf
        rw [hn]
      have hcongr := nearZ_congr (resolveBox r p b) p b hzeq
      rw [hcongr, hzeq, hdz0]
      exact ⟨rfl, by ring⟩
  have hexpand : distSq (resolveBox r p b) b
      = (r / d) ^ 2 * ((p.x - nearX p b) ^ 2 + (p.z - nearZ p b) ^ 2) := by
    rw [distSq, hxnew.2, hznew.2]
    ring
  rw [hexpand]
  have hsum : (p.x - nearX p b) ^ 2 + (p.z - nearZ p b) ^ 2 = d ^ 2 := by
    rw [hd2]
    rfl
  rw [hsum]
  field_simp

/-- After the inside-the-box push the player sits at axis distance exactly
`r`, so the squared distance lies in `[r², r² + 0.0001]`. -/
theorem resolveBox_inside_post (r : ℝ) (p : Pos2) (b : Box2) (hwf : BoxWF b)
    (hr : 0 < r) (hover : distSq p b < r ^ 2) (hin : distSq p b ≤ 0.0001) :
    r ^ 2 ≤ distSq (resolveBox r p b) b ∧ distSq (resolveBox r p b) b ≤ r ^ 2 + 0.0001 := by
  have hdz2 : (p.z - nearZ p b) ^ 2 ≤ 0.0001 := by
    have : (p.x - nearX p b) ^ 2 + (p.z - nearZ p b) ^ 2 ≤ 0.0001 := hin
    nlinarith [sq_nonneg (p.x - nearX p b)]
  have hdx2 : (p.x - nearX p b) ^ 2 ≤ 0.0001 := by
    have : (p.x - nearX p b) ^ 2 + (p.z - nearZ p b) ^ 2 ≤ 0.0001 := hin
    nlinarith [sq_nonneg (p.z - nearZ p b)]
  rcases resolveBox_inside_cases r p b hover hin with ⟨-, heq⟩ | ⟨-, heq⟩
  · have hzfix : (resolveBox r p b).z = p.z := by rw [heq]
    have hnz : nearZ (resolveBox r p b) b = nearZ p b :=
      nearZ_congr _ _ _ hzfix
    have hdx : (resolveBox r p b).x - nearX (resolveBox r p b) b = r ∨
        (resolveBox r p b).x - nearX (resolveBox r p b) b = -r := by
      by_cases hdir : boxCX b < p.x
      · left
        have hxv : (resolveBox r p b).x = b.maxX + r := by
          rw [heq]
          simp only [if_pos hdir]
          unfold boxCX boxHW
          ring
        rw [nearX_of_ge_max _ _ hwf (by rw [hxv]; linarith), hxv]
        ring
      · right
        have hxv : (resolveBox r p b).x = b.minX - r := by
          rw [heq]
          simp only [if_neg hdir]
          unfold boxCX boxHW
          ring
        rw [nearX_of_le_min _ _ hwf (by rw [hxv]; linarith), hxv]
        ring
    have hds : distSq (resolveBox r p b) b = r ^ 2 + (p.z - nearZ p b) ^ 2 := by
      rw [distSq, hnz, hzfix]
      rcases hdx with h | h
      · rw [h]
      · rw [h]
        ring
    rw [hds]
    constructor
    · nlinarith [sq_nonneg (p.z - nearZ p b)]
    · linarith [hdz2]
  · have hxfix : (resolveBox r p b).x = p.x := by rw [heq]
    have hnx : nearX (resolveBox r p b) b = nearX p b :=
      nearX_congr _ _ _ hxfix
    have hdz : (resolveBox r p b).z - nearZ (resolveBox r p b) b = r ∨
        (resolveBox r p b).z - nearZ (resolveBox r p b) b = -r := by
      by_cases hdir : boxCZ b < p.z
      · left
        have hzv : (resolveBox r p b).z = b.maxZ + r := by
          rw [heq]
          simp only [if_pos hdir]
          unfold boxCZ boxHD
          ring
        rw [nearZ_of_ge_max _ _ hwf (by rw [hzv]; linarith), hzv]
        ring
      · right
        have hzv : (resolveBox r p b).z = b.minZ - r := by
          rw [heq]
          simp only [if_neg hdir]
          unfold boxCZ boxHD
          ring
        rw [nearZ_of_le_min _ _ hwf (by rw [hzv]; linarith), hzv]
        ring
    have hds : distSq (resolveBox r p b) b = r ^ 2 + (p.x - nearX p b) ^ 2 := by
      rw [distSq, hnx, hxfix]
      rcases hdz with h | h
      · rw [h]
        ring
      · rw [h]
        ring
    rw [hds]
    constructor
    · nlinarith [sq_nonneg (p.x - nearX p b)]
    · linarith [hdx2]

/-- Per-box postcondition of one resolver step: the player never ends closer
than `r` to the processed box, and any step that moves the player lands within
`√(r² + 0.0001)` of it. -/
theorem resolveBox_post (r : ℝ) (p : Pos2) (b : Box2) (hwf : BoxWF b) (hr : 0 < r) :
    r ^ 2 ≤ distSq (resolveBox r p b) b ∧
    (resolveBox r p b = p ∨ distSq (resolveBox r p b) b ≤ r ^ 2 + 0.0001) := by
  by_cases hover : distSq p b < r ^ 2
  · by_cases hout : 0.0001 < distSq p b
    · have h := resolveBox_radial r p b hwf hr hover hout
      exact ⟨le_of_eq h.symm, Or.inr (by rw [h]; norm_num)⟩
    · have h := resolveBox_inside_post r p b hwf hr hover (not_lt.mp hout)
      exact ⟨h.1, Or.inr h.2⟩
  · have heq : resolveBox r p b = p := by
      rw [resolveBox, if_neg hover]
    exact ⟨by rw [heq]; exact not_lt.mp hover, Or.inl heq⟩

/-- Axis gap between two boxes' `x` ranges (`0` when they touch or overlap). -/
noncomputable def gapX (a b : Box2) : ℝ := max 0 (max (a.minX - b.maxX) (b.minX - a.maxX))

/-- Axis gap between two boxes' `z` ranges. -/
noncomputable def gapZ (a b : Box2) : ℝ := max 0 (max (a.minZ - b.maxZ) (b.minZ - a.maxZ))

/-- Squared planar distance between two boxes. -/
noncomputable def boxGapSq (a b : Box2) : ℝ := gapX a b ^ 2 + gapZ a b ^ 2

theorem nearX_mem_lo (q : Pos2) (a : Box2) : a.minX ≤ nearX q a := le_max_left _ _

theorem nearX_mem_hi (q : Pos2) (a : Box2) (hwf : BoxWF a) : nearX q a ≤ a.maxX :=
  max_le hwf.1 (min_le_right _ _)

theorem nearZ_mem_lo (q : Pos2) (a : Box2) : a.minZ ≤ nearZ q a := le_max_left _ _

theorem nearZ_mem_hi (q : Pos2) (a : Box2) (hwf : BoxWF a) : nearZ q a ≤ a.maxZ :=
  max_le hwf.2 (min_le_right _ _)

theorem gapX_le (q : Pos2) (a b : Box2) (hwa : BoxWF a) (hwb : BoxWF b) :
    gapX a b ≤ |q.x - nearX q a| + |q.x - nearX q b| := by
  have h1 := nearX_mem_lo q a
  have h2 := nearX_mem_hi q a hwa
  have h3 := nearX_mem_lo q b
  have h4 := nearX_mem_hi q b hwb
  have ha1 := le_abs_self (q.x - nearX q a)
  have ha2 := neg_abs_le (q.x - nearX q a)
  have hb1 := le_abs_self (q.x - nearX q b)
  have hb2 := neg_abs_le (q.x - nearX q b)
  apply max_le (add_nonneg (abs_nonneg _) (abs_nonneg _))
  apply max_le <;> linarith

theorem gapZ_le (q : Pos2) (a b : Box2) (hwa : BoxWF a) (hwb : BoxWF b) :
    gapZ a b ≤ |q.z - nearZ q a| + |q.z - nearZ q b| := by
  have h1 := nearZ_mem_lo q a
  have h2 := nearZ_mem_hi q a hwa
  have h3 := nearZ_mem_lo q b
  have h4 := nearZ_mem_hi q b hwb
  have ha1 := le_abs_self (q.z - nearZ q a)
  have ha2 := neg_abs_le (q.z - nearZ q a)
  have hb1 := le_abs_self (q.z - nearZ q b)
  have hb2 := neg_abs_le (q.z - nearZ q b)
  apply max_le (add_nonneg (abs_nonneg _) (abs_nonneg _))
  apply max_le <;> linarith

/-- Two-dimensional Minkowski inequality for componentwise sums. -/
theorem minkowski_two (A B C D : ℝ) (hA : 0 ≤ A) (hB : 0 ≤ B) (hC : 0 ≤ C) (hD : 0 ≤ D) :
    Real.sqrt ((A + C) ^ 2 + (B + D) ^ 2)
      ≤ Real.sqrt (A ^ 2 + B ^ 2) + Real.sqrt (C ^ 2 + D ^ 2) := by
  have h1 : (0 : ℝ) ≤ A ^ 2 + B ^ 2 := by positivity
  have h2 : (0 : ℝ) ≤ C ^ 2 + D ^ 2 := by positivity
  have hs1 : Real.sqrt (A ^ 2 + B ^ 2) ^ 2 = A ^ 2 + B ^ 2 := Real.sq_sqrt h1
  have hs2 : Real.sqrt (C ^ 2 + D ^ 2) ^ 2 = C ^ 2 + D ^ 2 := Real.sq_sqrt h2
  have hCS : A * C + B * D ≤ Real.sqrt ((A ^ 2 + B ^ 2) * (C ^ 2 + D ^ 2)) := by
    rw [Real.le_sqrt (by positivity) (by positivity)]
    nlinarith [sq_nonneg (A * D - B * C)]
  rw [Real.sqrt_mul h1] at hCS
  rw [Real.sqrt_le_iff]
  constructor
  · exact add_nonneg (Real.sqrt_nonneg _) (Real.sqrt_nonneg _)
  · nlinarith [Real.sqrt_nonneg (A ^ 2 + B ^ 2), Real.sqrt_nonneg (C ^ 2 + D ^ 2), hCS,
      hs1, hs2]

/-- Planar triangle inequality through any point: the gap between two boxes
is at most the sum of the point's distances to each. -/
theorem boxGap_triangle (q : Pos2) (a b : Box2) (hwa : BoxWF a) (hwb : BoxWF b) :
    Real.sqrt (boxGapSq a b) ≤ Real.sqrt (distSq q a) + Real.sqrt (distSq q b) := by
  have hga := gapX_le q a b hwa hwb
  have hgz := gapZ_le q a b hwa hwb
  have hgx0 : 0 ≤ gapX a b := le_max_left _ _
  have hgz0 : 0 ≤ gapZ a b := le_max_left _ _
  have hstep1 : Real.sqrt (boxGapSq a b)
      ≤ Real.sqrt ((|q.x - nearX q a| + |q.x - nearX q b|) ^ 2
          + (|q.z - nearZ q a| + |q.z - nearZ q b|) ^ 2) := by
    apply Real.sqrt_le_sqrt
    unfold boxGapSq
    nlinarith [hga, hgz, hgx0, hgz0, abs_nonneg (q.x - nearX q a),
      abs_nonneg (q.x - nearX q b), abs_nonneg (q.z - nearZ q a),
      abs_nonneg (q.z - nearZ q b)]
  have hstep2 := minkowski_two |q.x - nearX q a| |q.z - nearZ q a|
    |q.x - nearX q b| |q.z - nearZ q b| (abs_nonneg _) (abs_nonneg _)
    (abs_nonneg _) (abs_nonneg _)
  have hda : distSq q a = |q.x - nearX q a| ^ 2 + |q.z - nearZ q a| ^ 2 := by
    unfold distSq
    rw [sq_abs, sq_abs]
  have hdb : distSq q b = |q.x - nearX q b| ^ 2 + |q.z - nearZ q b| ^ 2 := by
    unfold distSq
    rw [sq_abs, sq_abs]
  rw [hda, hdb]
  exact le_trans hstep1 hstep2

/-- Processing further boxes that are `≥ 2r` away from `b` cannot bring the
player deeper into `b` than the tolerance bound. -/
theorem resolvePass_maintain (r : ℝ) (b : Box2) (hwb : BoxWF b) (hr : 0 < r) :
    ∀ (boxes : List Box2) (q : Pos2),
      (∀ b' ∈ boxes, BoxWF b' ∧ 2 * r ≤ Real.sqrt (boxGapSq b b')) →
      2 * r - Real.sqrt (r ^ 2 + 0.0001) ≤ Real.sqrt (distSq q b) →
      2 * r - Real.sqrt (r ^ 2 + 0.0001) ≤ Real.sqrt (distSq (resolvePass r q boxes) b) := by
  intro boxes
  induction boxes with
  | nil => intro q _ h; exact h
  | cons b0 rest ih =>
    intro q hall hq
    show 2 * r - Real.sqrt (r ^ 2 + 0.0001)
        ≤ Real.sqrt (distSq (resolvePass r (resolveBox r q b0) rest) b)
    obtain ⟨hwb0, hgap⟩ := hall b0 (List.mem_cons_self _ _)
    apply ih (resolveBox r q b0) (fun x hx => hall x (List.mem_cons_of_mem _ hx))
    rcases (resolveBox_post r q b0 hwb0 hr).2 with heq | hclose
    · rw [heq]
      exact hq
    · have htri := boxGap_triangle (resolveBox r q b0) b b0 hwb hwb0
      have hd2 : Real.sqrt (distSq (resolveBox r q b0) b0) ≤ Real.sqrt (r ^ 2 + 0.0001) :=
        Real.sqrt_le_sqrt hclose
      linarith [htri, hgap, hd2]

/-- After one full pass over a pairwise `2r`-separated box list, every box is
at least `2r - √(r² + 0.0001)` away from the player. -/
theorem resolvePass_post (r : ℝ) :
    ∀ (boxes : List Box2) (q : Pos2), 0 < r → (∀ b ∈ boxes, BoxWF b) →
      boxes.Pairwise (fun a b => 2 * r ≤ Real.sqrt (boxGapSq a b)) →
      ∀ b ∈ boxes,
        2 * r - Real.sqrt (r ^ 2 + 0.0001) ≤ Real.sqrt (distSq (resolvePass r q boxes) b) := by
  intro boxes
  induction boxes with
  | nil => intro q _ _ _ b hb; simp at hb
  | cons b0 rest ih =>
    intro q hr hwf hpw b hb
    have hpw' := List.pairwise_cons.mp hpw
    rcases List.mem_cons.mp hb with rfl | hbr
    · show 2 * r - Real.sqrt (r ^ 2 + 0.0001)
          ≤ Real.sqrt (distSq (resolvePass r (resolveBox r q b) rest) b)
      apply resolvePass_maintain r b (hwf b (List.mem_cons_self _ _)) hr rest
        (resolveBox r q b)
      · intro b' hb'
        exact ⟨hwf b' (List.mem_cons_of_mem _ hb'), hpw'.1 b' hb'⟩
      · have hpost := (resolveBox_post r q b (hwf b (List.mem_cons_self _ _)) hr).1
        have hge : r ≤ Real.sqrt (distSq (resolveBox r q b) b) := by
          calc r = Real.sqrt (r ^ 2) := (Real.sqrt_sq hr.le).symm
          _ ≤ _ := Real.sqrt_le_sqrt hpost
        have hrm : 2 * r - Real.sqrt (r ^ 2 + 0.0001) ≤ r := by
          have h1 : r ≤ Real.sqrt (r ^ 2 + 0.0001) := by
            calc r = Real.sqrt (r ^ 2) := (Real.sqrt_sq hr.le).symm
            _ ≤ _ := Real.sqrt_le_sqrt (by norm_num)
          linarith
        linarith
    · exact ih (resolveBox r q b0) hr (fun x hx => hwf x (List.mem_cons_of_mem _ hx))
        hpw'.2 b hbr

/-- Claim C3: for every radius `r > 0`, every start position, and every finite
set of well-formed axis-aligned blocking volumes whose pairwise planar gaps
are at least `2r` (the formalisation of "door gaps exceed `2·radius`"), after
`resolveCollisions` (3 iterations over all boxes) the player's circle overlaps
no volume by more than the floating tolerance `√(r² + 0.0001) - r`: every
box's distance is at least `2r - √(r² + 0.0001)`. -/
theorem resolveCollisions_no_overlap (r : ℝ) (p : Pos2) (boxes : List Box2)
    (hr : 0 < r) (hwf : ∀ b ∈ boxes, BoxWF b)
    (hgap : boxes.Pairwise (fun a b => 2 * r ≤ Real.sqrt (boxGapSq a b))) :
    ∀ b ∈ boxes,
      2 * r - Real.sqrt (r ^ 2 + 0.0001)
        ≤ Real.sqrt (distSq (resolveCollisions r p boxes) b) := by
  intro b hb
  rw [resolveCollisions]
  exact resolvePass_post r boxes _ hr hwf hgap b hb

/-- Witness for C3: two unit-depth walls at planar distance `3 ≥ 2·1`, player
between them. -/
theorem resolveCollisions_no_overlap_witness :
    2 * 1 - Real.sqrt (1 ^ 2 + 0.0001)
      ≤ Real.sqrt (distSq (resolveCollisions 1 ⟨2, 1/2⟩
          [(⟨0, 1, 0, 1⟩ : Box2), ⟨4, 5, 0, 1⟩]) ⟨0, 1, 0, 1⟩) := by
  have hgapx : gapX (⟨0, 1, 0, 1⟩ : Box2) ⟨4, 5, 0, 1⟩ = 3 := by
    unfold gapX
    rw [max_eq_right (by norm_num : (0 : ℝ) - 5 ≤ 4 - 1),
      max_eq_right (by norm_num : (0 : ℝ) ≤ 4 - 1)]
    norm_num
  have hgapz : gapZ (⟨0, 1, 0, 1⟩ : Box2) ⟨4, 5, 0, 1⟩ = 0 := by
    unfold gapZ
    rw [max_self, max_eq_left (by norm_num : (0 : ℝ) - 1 ≤ 0)]
  apply resolveCollisions_no_overlap 1 ⟨2, 1/2⟩
    [(⟨0, 1, 0, 1⟩ : Box2), ⟨4, 5, 0, 1⟩] (by norm_num)
    (by
      intro b hb
      rcases List.mem_cons.mp hb with rfl | hb'
      · exact ⟨by norm_num, by norm_num⟩
      · rcases List.mem_cons.mp hb' with rfl | hb''
        · exact ⟨by norm_num, by norm_num⟩
        · simp at hb'')
    (by
      apply List.pairwise_cons.mpr
      refine ⟨?_, List.pairwise_singleton _ _⟩
      intro b' hb'
      rcases List.mem_cons.mp hb' with rfl | hb''
      · rw [show boxGapSq (⟨0, 1, 0, 1⟩ : Box2) (⟨4, 5, 0, 1⟩ : Box2) = 9 from by
          unfold boxGapSq
          rw [hgapx, hgapz]
          norm_num]
        rw [show (9 : ℝ) = 3 ^ 2 by norm_num, Real.sqrt_sq (by norm_num)]
        norm_num
      · simp at hb'')
    ⟨0, 1, 0, 1⟩ (List.mem_cons_self _ _)

/-! Deep-link router (src/router.js).  Strings are embedded as `List Char`.
`decodeURIComponent` can throw `URIError`; the embedding returns `Option`,
with `none` modelling the thrown exception.  The decoder is faithful on the
ASCII plane (all GitHub repository names); multi-byte UTF-8 percent
sequences are outside the model and also map to `none`. -/

/-- `hash.replace(/^#\/?/, '')`: strip one leading `#` and an optional
following `/`. -/
def stripHash : List Char → List Char
  | [] => []
  | c :: rest =>
    if c = '#' then
      match rest with
      | c2 :: rest2 => if c2 = '/' then rest2 else rest
      | [] => []
    else c :: rest

/-- Value of one hexadecimal digit (`decodeURIComponent` accepts both
cases); `none` for a non-hex character. -/
def hexDigitVal (c : Char) : Option ℕ :=
  if '0' ≤ c ∧ c ≤ '9' then some (c.toNat - 48)
  else if 'A' ≤ c ∧ c ≤ 'F' then some (c.toNat - 55)
  else if 'a' ≤ c ∧ c ≤ 'f' then some (c.toNat - 87)
  else none

/-- Uppercase hexadecimal digit for a value `< 16` (as emitted by
`encodeURIComponent`). -/
def hexDigitUpper (n : ℕ) : Char :=
  if n < 10 then Char.ofNat (48 + n) else Char.ofNat (55 + n)

/-- The characters `encodeURIComponent` leaves unescaped
(`ALPHA / DIGIT / - _ . ! ~ * ' ( )`). -/
def isUnreservedChar (c : Char) : Bool :=
  (('A' ≤ c && c ≤ 'Z') || ('a' ≤ c && c ≤ 'z') || ('0' ≤ c && c ≤ '9') ||
    c == '-' || c == '_' || c == '.' || c == '!' || c == '~' || c == '*' ||
    c == Char.ofNat 39 || c == '(' || c == ')')

/-- UTF-8 bytes of a code point. -/
def utf8Bytes (n : ℕ) : List ℕ :=
  if n < 128 then [n]
  else if n < 2048 then [192 + n / 64, 128 + n % 64]
  else if n < 65536 then [224 + n / 4096, 128 + (n / 64) % 64, 128 + n % 64]
  else [240 + n / 262144, 128 + (n / 4096) % 64, 128 + (n / 64) % 64, 128 + n % 64]

/-- Percent-escape of one byte, uppercase hex. -/
def pctEncodeByte (b : ℕ) : List Char := ['%', hexDigitUpper (b / 16), hexDigitUpper (b % 16)]

/-- `encodeURIComponent` on a character list. -/
def encodeURIComponentChars : List Char → List Char
  | [] => []
  | c :: rest =>
    (if isUnreservedChar c then [c]
     else ((utf8Bytes c.toNat).map pctEncodeByte).flatten) ++ encodeURIComponentChars rest

/-- `decodeURIComponent` on a character list; `none` models a thrown
`URIError` (malformed escape) and, conservatively, a multi-byte UTF-8
escape outside the ASCII model. -/
def decodeURIComponentChars : List Char → Option (List Char)
  | [] => some []
  | c :: rest =>
    if c = '%' then
      match rest with
      | c1 :: c2 :: rest2 =>
        match hexDigitVal c1, hexDigitVal c2 with
        | some hi, some lo =>
          if 16 * hi + lo < 128 then
            (decodeURIComponentChars rest2).map (fun out => Char.ofNat (16 * hi + lo) :: out)
          else none
        | _, _ => none
      | _ => none
    else
      (decodeURIComponentChars rest).map (fun out => c :: out)

/-- Router target: lobby or a named room. -/
inductive Route where
  | lobby : Route
  | room : List Char → Route
deriving DecidableEq, Repr

/-- The literal `room/`. -/
def roomTag : List Char := ['r', 'o', 'o', 'm', '/']

/-- The literal `lobby`. -/
def lobbyTag : List Char := ['l', 'o', 'b', 'b', 'y']

/-- `parseHash` (src/router.js): strip `#`/`#/`, empty or `lobby` → lobby,
`room/<name>` → the decoded name when non-empty, anything else → lobby;
`none` models the `URIError` thrown by `decodeURIComponent`. -/
def parseHashChars (hash : List Char) : Option Route :=
  if stripHash hash = [] ∨ stripHash hash = lobbyTag then some Route.lobby
  else if (stripHash hash).take 5 = roomTag then
    match decodeURIComponentChars ((stripHash hash).drop 5) with
    | none => none
    | some name => if name = [] then some Route.lobby else some (Route.room name)
  else some Route.lobby

/-- `parseHash` on an actual string. -/
def parseHash (s : String) : Option Route := parseHashChars s.data

/-- `setHash(type, repoName)`: `#room/<encoded name>` when the type is
`room` and the name is non-empty (truthy), else `#lobby`. -/
def setHash (ty : List Char) (repoName : List Char) : List Char :=
  if ty = ['r', 'o', 'o', 'm'] ∧ repoName ≠ [] then
    '#' :: roomTag ++ encodeURIComponentChars repoName
  else '#' :: lobbyTag

theorem decode_cons (c : Char) (l : List Char) :
    decodeURIComponentChars (c :: l)
      = if c = '%' then
          (match l with
           | c1 :: c2 :: rest2 =>
             (match hexDigitVal c1, hexDigitVal c2 with
              | some hi, some lo =>
                if 16 * hi + lo < 128 then
                  (decodeURIComponentChars rest2).map
                    (fun out => Char.ofNat (16 * hi + lo) :: out)
                else none
              | _, _ => none)
           | _ => none)
        else (decodeURIComponentChars l).map (fun out => c :: out) := by
  rw [decodeURIComponentChars.eq_def]

theorem isUnreservedChar_ne_pct (c : Char) (h : isUnreservedChar c = true) : c ≠ '%' := by
  intro hc
  subst hc
  have : isUnreservedChar '%' = false := by decide
  rw [this] at h
  cases h

theorem hexDigitVal_hexDigitUpper (n : ℕ) (h : n < 16) :
    hexDigitVal (hexDigitUpper n) = some n := by
  interval_cases n <;> decide

/-- Decoding inverts encoding on ASCII character lists. -/
theorem decode_encode (cs : List Char) (h : ∀ c ∈ cs, c.toNat < 128) :
    decodeURIComponentChars (encodeURIComponentChars cs) = some cs := by
  induction cs with
  | nil => rfl
  | cons c rest ih =>
    have hc : c.toNat < 128 := h c (List.mem_cons_self _ _)
    have hrest := ih (fun x hx => h x (List.mem_cons_of_mem _ hx))
    rw [encodeURIComponentChars]
    by_cases hu : isUnreservedChar c = true
    · rw [if_pos hu, List.singleton_append, decode_cons,
        if_neg (isUnreservedChar_ne_pct c hu), hrest]
      rfl
    · rw [if_neg hu]
      have hb : utf8Bytes c.toNat = [c.toNat] := by rw [utf8Bytes, if_pos hc]
      rw [hb]
      show decodeURIComponentChars
          ('%' :: hexDigitUpper (c.toNat / 16) :: hexDigitUpper (c.toNat % 16) ::
            encodeURIComponentChars rest) = some (c :: rest)
      rw [decode_cons, if_pos rfl]
      have hh1 : hexDigitVal (hexDigitUpper (c.toNat / 16)) = some (c.toNat / 16) :=
        hexDigitVal_hexDigitUpper _ (Nat.div_lt_of_lt_mul (by omega))
      have hh2 : hexDigitVal (hexDigitUpper (c.toNat % 16)) = some (c.toNat % 16) :=
        hexDigitVal_hexDigitUpper _ (Nat.mod_lt _ (by omega))
      have hval : 16 * (c.toNat / 16) + c.toNat % 16 = c.toNat := by omega
      simp only [hh1, hh2, hval, if_pos hc, hrest, Char.ofNat_toNat]
      rfl

theorem stripHash_subset (l : List Char) : ∀ c ∈ stripHash l, c ∈ l := by
  rcases l with _ | ⟨c0, rest⟩
  · intro c hc
    exact hc
  · intro c hc
    by_cases h0 : c0 = '#'
    · subst h0
      rcases rest with _ | ⟨c2, rest2⟩
      · simp [stripHash] at hc
      · by_cases h2 : c2 = '/'
        · subst h2
          simp only [stripHash, if_pos rfl] at hc
          exact List.mem_cons_of_mem _ (List.mem_cons_of_mem _ hc)
        · simp only [stripHash, if_pos rfl, if_neg h2] at hc
          exact List.mem_cons_of_mem _ hc
    · simp only [stripHash, if_neg h0] at hc
      exact hc

theorem decode_isSome_no_pct : ∀ l : List Char, '%' ∉ l →
    (decodeURIComponentChars l).isSome = true := by
  intro l
  induction l with
  | nil => intro _; rfl
  | cons c rest ih =>
    intro hnp
    have hc : c ≠ '%' := fun h => hnp (h ▸ List.mem_cons_self _ _)
    rw [decode_cons, if_neg hc]
    have := ih (fun h => hnp (List.mem_cons_of_mem _ h))
    cases hd : decodeURIComponentChars rest
    · rw [hd] at this
      cases this
    · rfl

/-- Shared room-token evaluation of `parseHashChars`. -/
theorem parseHashChars_roomCase (l rest name : List Char)
    (hstrip : stripHash l = roomTag ++ rest)
    (hdec : decodeURIComponentChars rest = some name) (hne : name ≠ []) :
    parseHashChars l = some (Route.room name) := by
  unfold parseHashChars
  rw [hstrip]
  rw [if_neg (by simp [roomTag, lobbyTag])]
  rw [if_pos (by rw [show (5 : ℕ) = roomTag.length from rfl, List.take_left])]
  rw [show (roomTag ++ rest).drop 5 = rest from by
    rw [show (5 : ℕ) = roomTag.length from rfl, List.drop_left]]
  rw [hdec]
  show (if name = [] then some Route.lobby else some (Route.room name))
      = some (Route.room name)
  rw [if_neg hne]

/-- Claim C8: serializing the lobby state and any valid (non-empty, ASCII)
room id through `setHash` and parsing it back through `parseHash` returns the
original state. -/
theorem router_round_trip (name : List Char) (hne : name ≠ [])
    (hascii : ∀ c ∈ name, c.toNat < 128) :
    parseHashChars (setHash lobbyTag []) = some Route.lobby ∧
    parseHashChars (setHash ['r', 'o', 'o', 'm'] name) = some (Route.room name) := by
  constructor
  · rfl
  · have hset : setHash ['r', 'o', 'o', 'm'] name
        = '#' :: roomTag ++ encodeURIComponentChars name := by
      rw [setHash, if_pos ⟨rfl, hne⟩]
    rw [hset]
    exact parseHashChars_roomCase _ _ _ rfl (decode_encode name hascii) hne

/-- Witness for C8 at a concrete repository name. -/
theorem router_round_trip_witness :
    parseHashChars (setHash lobbyTag []) = some Route.lobby ∧
    parseHashChars (setHash ['r', 'o', 'o', 'm'] ['g', 'i', 't', '-', 'x'])
      = some (Route.room ['g', 'i', 't', '-', 'x']) :=
  router_round_trip ['g', 'i', 't', '-', 'x'] (by simp) (by decide)

/-- Counterexample to claim C10 as stated: on the hash `#room/%` the code's
`decodeURIComponent` call throws `URIError` (modelled by `none`), so
`parseHash` does not return a result. -/
theorem parseHash_throws_cex : parseHash ("#room/%") = none := by rfl

/-- Claim C10 (amended): `parseHash` returns a result for every hash string
whose room-name part is free of percent escapes (in particular any hash not
containing `%`): `lobby` whenever the stripped hash does not start with
`room/`, and the decoded room for well-formed non-empty `room/<name>` tokens;
malformed percent escapes such as `#room/%` make `decodeURIComponent` throw. -/
theorem parseHash_total_amended :
    (∀ l : List Char, '%' ∉ l → (parseHashChars l).isSome = true) ∧
    (∀ l : List Char, ¬ (stripHash l).take 5 = roomTag →
      parseHashChars l = some Route.lobby) ∧
    (∀ l rest name : List Char, stripHash l = roomTag ++ rest →
      decodeURIComponentChars rest = some name → name ≠ [] →
      parseHashChars l = some (Route.room name)) := by
  refine ⟨?_, ?_, parseHashChars_roomCase⟩
  · intro l hnp
    unfold parseHashChars
    by_cases h1 : stripHash l = [] ∨ stripHash l = lobbyTag
    · rw [if_pos h1]
      rfl
    · rw [if_neg h1]
      by_cases h2 : (stripHash l).take 5 = roomTag
      · rw [if_pos h2]
        have hnp5 : '%' ∉ (stripHash l).drop 5 := fun h =>
          hnp (stripHash_subset l _ (List.mem_of_mem_drop h))
        have := decode_isSome_no_pct _ hnp5
        cases hd : decodeURIComponentChars ((stripHash l).drop 5) with
        | none =>
          rw [hd] at this
          cases this
        | some v =>
          show (if v = [] then some Route.lobby else some (Route.room v)).isSome = true
          split <;> rfl
      · rw [if_neg h2]
        rfl
  · intro l h2
    unfold parseHashChars
    by_cases h1 : stripHash l = [] ∨ stripHash l = lobbyTag
    · rw [if_pos h1]
    · rw [if_neg h1, if_neg h2]

/-- Witness for C10's amended theorem: evaluation on `#lobby` (percent-free,
not a room token). -/
theorem parseHash_total_amended_witness :
    parseHashChars ['#', 'l', 'o', 'b', 'b', 'y'] = some Route.lobby :=
  parseHash_total_amended.2.1 ['#', 'l', 'o', 'b', 'b', 'y'] (by decide)

/-! Hashchange handler (src/main.js lines 244-257): resolve the parsed token
against `roomMeta`; a matching room teleports, the lobby token teleports to
the lobby, and an unknown room id falls through with no teleport at all. -/

/-- A teleport pose (position only; `teleportToRoom`/`teleportToLobby` write
`pos.x/y/z`). -/
structure Pose where
  x : ℚ
  y : ℚ
  z : ℚ
deriving DecidableEq, Repr

/-- `teleportToLobby`: `(0, height, lobbyCenterZ + 2)`. -/
def lobbyPose (height lobbyCenterZ : ℚ) : Pose := ⟨0, height, lobbyCenterZ + 2⟩

/-- `teleportToRoom`: land just inside the doorway of the room. -/
def roomPose (height : ℚ) (rm : Room) : Pose :=
  ⟨rm.centerX - (if 0 < rm.centerX then (1 : ℚ) else -1) * (rm.rw / 2 - 1.5),
   height, rm.centerZ⟩

/-- The `hashchange` listener as a pose transformer: `none` from the parser
(thrown `URIError`) and an unknown room id both leave the pose unchanged. -/
def onHashChange (hash : List Char) (rooms : List Room) (height lobbyCenterZ : ℚ)
    (pos : Pose) : Pose :=
  match parseHashChars hash with
  | none => pos
  | some (Route.room name) =>
    match rooms.find? (fun rm => rm.name.data == name) with
    | some rm => roomPose height rm
    | none => pos
  | some Route.lobby => lobbyPose height lobbyCenterZ

/-- Counterexample to claim C7 as stated: a token for the unknown room
`beta` (only `alpha` exists) leaves the avatar at its current pose
`(5, 1.7, -12)`, which is not the lobby entry pose. -/
theorem onHashChange_unknown_cex :
    onHashChange (String.data ("#room/beta")) [⟨"alpha", 1, 9, -10, 10⟩]
        (17/10) 9 ⟨5, 17/10, -12⟩ = ⟨5, 17/10, -12⟩ ∧
    (⟨5, 17/10, -12⟩ : Pose) ≠ lobbyPose (17/10) 9 := by
  constructor
  · rfl
  · intro h
    rw [lobbyPose, Pose.mk.injEq] at h
    have := h.2.2
    norm_num at this

/-- Claim C7 (amended): a navigation token naming an unknown room id is
silently ignored — the handler performs no teleport (the pose is unchanged)
and surfaces no error; it does not fall back to the lobby pose. -/
theorem onHashChange_unknown_keeps_pose (hash : List Char) (rooms : List Room)
    (height lcz : ℚ) (pos : Pose) (name : List Char)
    (hparse : parseHashChars hash = some (Route.room name))
    (hfind : rooms.find? (fun rm => rm.name.data == name) = none) :
    onHashChange hash rooms height lcz pos = pos := by
  unfold onHashChange
  rw [hparse]
  show (match rooms.find? (fun rm => rm.name.data == name) with
        | some rm => roomPose height rm
        | none => pos) = pos
  rw [hfind]

/-- Witness for C7's amended theorem at the concrete unknown-room input. -/
theorem onHashChange_unknown_keeps_pose_witness :
    onHashChange (String.data ("#room/beta")) [⟨"alpha", 1, 9, -10, 10⟩]
        (17/10) 9 ⟨5, 17/10, -12⟩ = ⟨5, 17/10, -12⟩ :=
  onHashChange_unknown_keeps_pose _ _ _ _ _ ['b', 'e', 't', 'a'] rfl rfl

/-! Room-entry content loading (src/main.js).  Per frame the loop compares
the detected room against `currentRoom` and, only on a change, starts the
content load when the room's `readmeLoaded` flag is unset; `loadRoomContent`
sets the flag before its `await` (optimistic one-shot).  Teleport paths
(init, hashchange, directory) follow the same `!room.readmeLoaded` guard.
The model tracks `currentRoom` and the set of flagged rooms; an emitted name
is a content fetch being started. -/

/-- Loader-relevant session state: `currentRoom` and the rooms whose
`readmeLoaded` flag is set. -/
structure LoaderState where
  current : Option String
  loaded : List String
deriving DecidableEq, Repr

/-- One observable interaction: a frame with the locality detector's result,
a navigation to a known room (init hash, hashchange, or directory pick), or a
navigation to the lobby. -/
inductive LoaderAct where
  | frame (detected : Option String)
  | navRoom (name : String)
  | navLobby
deriving DecidableEq, Repr

/-- One step of the session; the returned list holds the names whose content
fetch starts in this step (the flag is set in the same step, before the
fetch's await). -/
def loaderStep (s : LoaderState) : LoaderAct → LoaderState × List String
  | .frame (some n) =>
    if some n = s.current then (s, [])
    else if n ∈ s.loaded then (⟨some n, s.loaded⟩, [])
    else (⟨some n, n :: s.loaded⟩, [n])
  | .frame none =>
    if (none : Option String) = s.current then (s, []) else (⟨none, s.loaded⟩, [])
  | .navRoom n =>
    if n ∈ s.loaded then (⟨some n, s.loaded⟩, []) else (⟨some n, n :: s.loaded⟩, [n])
  | .navLobby => (s, [])

/-- A whole session: fold `loaderStep` over the interaction list, collecting
every started fetch. -/
def loaderRun (s : LoaderState) : List LoaderAct → LoaderState × List String
  | [] => (s, [])
  | a :: rest =>
    ((loaderRun (loaderStep s a).1 rest).1,
      (loaderStep s a).2 ++ (loaderRun (loaderStep s a).1 rest).2)

/-- Fresh session: in the lobby, nothing loaded. -/
def initLoader : LoaderState := ⟨none, []⟩

/-- Each step either emits nothing and keeps the flag set unchanged, or emits
exactly one not-yet-flagged name and flags it. -/
theorem loaderStep_spec (s : LoaderState) (a : LoaderAct) :
    ((loaderStep s a).2 = [] ∧ (loaderStep s a).1.loaded = s.loaded) ∨
    (∃ m, (loaderStep s a).2 = [m] ∧ m ∉ s.loaded ∧
      (loaderStep s a).1.loaded = m :: s.loaded) := by
  cases a with
  | frame d =>
    cases d with
    | none =>
      by_cases hsame : (none : Option String) = s.current
      · left
        simp only [loaderStep, if_pos hsame]
        exact ⟨trivial, trivial⟩
      · left
        simp only [loaderStep, if_neg hsame]
        exact ⟨trivial, trivial⟩
    | some n =>
      by_cases hsame : some n = s.current
      · left
        simp only [loaderStep, if_pos hsame]
        exact ⟨trivial, trivial⟩
      · by_cases hl : n ∈ s.loaded
        · left
          simp only [loaderStep, if_neg hsame, if_pos hl]
          exact ⟨trivial, trivial⟩
        · right
          refine ⟨n, ?_⟩
          simp only [loaderStep, if_neg hsame, if_neg hl]
          exact ⟨trivial, hl, trivial⟩
  | navRoom n =>
    by_cases hl : n ∈ s.loaded
    · left
      simp only [loaderStep, if_pos hl]
      exact ⟨trivial, trivial⟩
    · right
      refine ⟨n, ?_⟩
      simp only [loaderStep, if_neg hl]
      exact ⟨trivial, hl, trivial⟩
  | navLobby => exact Or.inl ⟨rfl, rfl⟩

/-- A session starting with room `n` flagged never fires a load for `n`;
otherwise it fires at most one. -/
theorem loaderRun_count_le (n : String) : ∀ (acts : List LoaderAct) (s : LoaderState),
    ((loaderRun s acts).2.count n) ≤ (if n ∈ s.loaded then 0 else 1) := by
  intro acts
  induction acts with
  | nil =>
    intro s
    simp [loaderRun]
  | cons a rest ih =>
    intro s
    rw [loaderRun]
    rcases loaderStep_spec s a with ⟨hev, hld⟩ | ⟨m, hev, hm, hld⟩
    · rw [hev]
      have hrec := ih (loaderStep s a).1
      rw [hld] at hrec
      simpa using hrec
    · rw [hev]
      have hrec := ih (loaderStep s a).1
      rw [hld] at hrec
      by_cases hnm : n = m
      · subst hnm
        rw [if_neg hm]
        have h0 : (loaderRun (loaderStep s a).1 rest).2.count n = 0 := by
          rw [if_pos (List.mem_cons_self _ _)] at hrec
          omega
        rw [List.count_append, h0]
        simp
      · have hc1 : ([m] : List String).count n = 0 := by
          simp [List.count_cons, hnm]
        rw [List.count_append, hc1, zero_add]
        by_cases hns : n ∈ s.loaded
        · rw [if_pos hns]
          rw [if_pos (List.mem_cons_of_mem _ hns)] at hrec
          exact hrec
        · rw [if_neg hns]
          have : n ∉ m :: s.loaded := by
            intro h
            rcases List.mem_cons.mp h with h' | h'
            · exact hnm h'
            · exact hns h'
          rw [if_neg this] at hrec
          exact hrec

/-- Claim C9: over any session (any interleaving of frames and teleports
starting from a fresh state), each room's content load starts at most once —
the `readmeLoaded` flag is set in the same step that starts the fetch, so
leaving and re-entering cannot duplicate it — and a frame whose detected room
equals `currentRoom` is a complete no-op (the entry event fires only on a
change of the detected room). -/
theorem room_entry_load_once (acts : List LoaderAct) (n : String) :
    ((loaderRun initLoader acts).2.count n ≤ 1) ∧
    (∀ s : LoaderState, loaderStep s (LoaderAct.frame s.current) = (s, [])) := by
  constructor
  · have h := loaderRun_count_le n acts initLoader
    simpa [initLoader] using h
  · intro s
    cases hc : s.current with
    | none => simp [loaderStep, hc]
    | some m => simp [loaderStep, hc]

/-! Collision geometry extraction (claim C6).  `addBox`/`addHallWallSeg` tag
structural meshes with `userData.isWall = true`; the lintel above each
doorway (and the lobby's doorway lintel) is deliberately left untagged.
`wallBoxes` in src/main.js collects the XZ footprints of exactly the tagged
meshes.  Footprints are `RectQ` (the `y` extent is irrelevant to the 2D
collision test). -/

/-- An XZ footprint of a scene box. -/
structure RectQ where
  minX : ℚ
  maxX : ℚ
  minZ : ℚ
  maxZ : ℚ
deriving DecidableEq, Repr

/-- A structural mesh: footprint plus the `userData.isWall` tag. -/
structure SMesh where
  rect : RectQ
  isWall : Bool
deriving DecidableEq, Repr

/-- Closed-rectangle membership of a point in a footprint. -/
def inRect (r : RectQ) (x z : ℚ) : Prop :=
  r.minX ≤ x ∧ x ≤ r.maxX ∧ r.minZ ≤ z ∧ z ≤ r.maxZ

/-- The six structural meshes of one room (five tagged walls plus the
untagged lintel), in world coordinates. -/
def roomMeshes (hw L rd : ℚ) (i : ℕ) (it : Item) : List SMesh :=
  [⟨⟨(sideOf i : ℚ) * (hw + it.rw / 2) - it.rw / 2,
     (sideOf i : ℚ) * (hw + it.rw / 2) + it.rw / 2,
     slotZ L i - rd / 2 - 0.2, slotZ L i - rd / 2⟩, true⟩,
   ⟨⟨(sideOf i : ℚ) * (hw + it.rw / 2) + (sideOf i : ℚ) * it.rw / 2 - 0.1,
     (sideOf i : ℚ) * (hw + it.rw / 2) + (sideOf i : ℚ) * it.rw / 2 + 0.1,
     slotZ L i - rd / 2, slotZ L i + rd / 2⟩, true⟩,
   ⟨⟨(sideOf i : ℚ) * (hw + it.rw / 2) - it.rw / 2,
     (sideOf i : ℚ) * (hw + it.rw / 2) + it.rw / 2,
     slotZ L i + rd / 2 - 0.1, slotZ L i + rd / 2 + 0.1⟩, true⟩,
   ⟨⟨(sideOf i : ℚ) * (hw + it.rw / 2) - (sideOf i : ℚ) * it.rw / 2 - 0.1,
     (sideOf i : ℚ) * (hw + it.rw / 2) - (sideOf i : ℚ) * it.rw / 2 + 0.1,
     slotZ L i - rd / 2, slotZ L i - rd / 2 + (rd - 2.6) / 2⟩, true⟩,
   ⟨⟨(sideOf i : ℚ) * (hw + it.rw / 2) - (sideOf i : ℚ) * it.rw / 2 - 0.1,
     (sideOf i : ℚ) * (hw + it.rw / 2) - (sideOf i : ℚ) * it.rw / 2 + 0.1,
     slotZ L i + rd / 2 - (rd - 2.6) / 2, slotZ L i + rd / 2⟩, true⟩,
   ⟨⟨(sideOf i : ℚ) * (hw + it.rw / 2) - (sideOf i : ℚ) * it.rw / 2 - 0.1,
     (sideOf i : ℚ) * (hw + it.rw / 2) - (sideOf i : ℚ) * it.rw / 2 + 0.1,
     slotZ L i - 1.3, slotZ L i + 1.3⟩, false⟩]

/-- All per-room meshes (`repos.forEach`). -/
def roomsMeshes (hw L rd : ℚ) : ℕ → List Item → List SMesh
  | _, [] => []
  | i, it :: rest => roomMeshes hw L rd i it ++ roomsMeshes hw L rd (i + 1) rest

/-- Footprint of one hallway wall segment (`addHallWallSeg`, thickness
`0.2` at `x = side·hallWidth`). -/
def hallSegMesh (s hw : ℚ) (seg : HallSeg) : SMesh :=
  ⟨⟨s * hw - 0.1, s * hw + 0.1, seg.lo, seg.hi⟩, true⟩

/-- Tagged hallway wall segments of one side. -/
def hallSegMeshes (side : ℤ) (hw L rd : ℚ) (items : List Item) : List SMesh :=
  (sideWallSegs side L rd items).map (hallSegMesh (side : ℚ) hw)

/-- The end-cap wall (`hallWidth*2 + 0.4` wide, `0.2` deep, at
`z = -(hallLen + 0.1)`). -/
def endWallMesh (hw hallLen : ℚ) : SMesh :=
  ⟨⟨-(hw + 0.2), hw + 0.2, -hallLen - 0.2, -hallLen⟩, true⟩

/-- Lobby structural meshes at the shipped CONFIG (`cubeSize 0.3`,
`cubeGap 0.07`, `lobbyCenterZ 9`, `hallWidth 4`): back wall, two side walls,
two front panels flanking the hallway opening, the untagged lobby lintel,
and four columns; every tagged footprint has `minZ ≥ -0.1`. -/
def lobbyMeshes : List SMesh :=
  [⟨⟨-11.62, 11.62, 14.295, 14.495⟩, true⟩,
   ⟨⟨-11.82, -11.62, 0, 14.295⟩, true⟩,
   ⟨⟨11.62, 11.82, 0, 14.295⟩, true⟩,
   ⟨⟨-11.62, -4, -0.1, 0.1⟩, true⟩,
   ⟨⟨4, 11.62, -0.1, 0.1⟩, true⟩,
   ⟨⟨-4, 4, -0.1, 0.1⟩, false⟩,
   ⟨⟨-11.0, -10.64, 2.4725, 2.8325⟩, true⟩,
   ⟨⟨10.64, 11.0, 2.4725, 2.8325⟩, true⟩,
   ⟨⟨-11.0, -10.64, 15.1675, 15.5275⟩, true⟩,
   ⟨⟨10.64, 11.0, 15.1675, 15.5275⟩, true⟩]

/-- Every structural mesh of the rendered world. -/
def sceneMeshes (hw L rd : ℚ) (items : List Item) : List SMesh :=
  endWallMesh hw (hallLenOf items.length L) ::
    (hallSegMeshes 1 hw L rd items ++ hallSegMeshes (-1) hw L rd items ++
      roomsMeshes hw L rd 0 items ++ lobbyMeshes)

/-- The collision extractor of src/main.js: footprints of exactly the
`isWall`-tagged meshes. -/
def wallBoxes (hw L rd : ℚ) (items : List Item) : List RectQ :=
  ((sceneMeshes hw L rd items).filter (fun m => m.isWall)).map (fun m => m.rect)

/-- The doorway gap region of room `i`: the inner-wall slab in `x`, the open
door interval (width `INNER_DOOR_W = 2.6`, centred at the slot) in `z`. -/
def inDoorGap (hw L : ℚ) (i : ℕ) (x z : ℚ) : Prop :=
  (sideOf i : ℚ) * hw - 0.1 ≤ x ∧ x ≤ (sideOf i : ℚ) * hw + 0.1 ∧
  slotZ L i - 1.3 < z ∧ z < slotZ L i + 1.3

theorem roomsMeshes_mem (hw L rd : ℚ) : ∀ (items : List Item) (i0 : ℕ) (m : SMesh),
    m ∈ roomsMeshes hw L rd i0 items ↔
      ∃ (j : ℕ) (hj : j < items.length),
        m ∈ roomMeshes hw L rd (i0 + j) (items.get ⟨j, hj⟩) := by
  intro items
  induction items with
  | nil =>
    intro i0 m
    simp [roomsMeshes]
  | cons it rest ih =>
    intro i0 m
    rw [roomsMeshes, List.mem_append]
    constructor
    · rintro (h | h)
      · exact ⟨0, by simp, by simpa using h⟩
      · obtain ⟨j, hj, hm⟩ := (ih (i0 + 1) m).mp h
        exact ⟨j + 1, by simpa using hj, by
          have : i0 + 1 + j = i0 + (j + 1) := by omega
          rw [← this]
          simpa using hm⟩
    · rintro ⟨j, hj, hm⟩
      cases j with
      | zero => exact Or.inl (by simpa using hm)
      | succ k =>
        right
        apply (ih (i0 + 1) m).mpr
        refine ⟨k, by simpa using hj, ?_⟩
        have : i0 + 1 + k = i0 + (k + 1) := by omega
        rw [this]
        simpa using hm

/-- The opening of a matching-side room is listed by `openingsRaw`. -/
theorem openingsRaw_mem_of (side : ℤ) (L rd : ℚ) :
    ∀ (items : List Item) (i0 j : ℕ), j < items.length → sideOf (i0 + j) = side →
      (⟨slotZ L (i0 + j) + rd / 2, slotZ L (i0 + j) - rd / 2⟩ : Opening)
        ∈ openingsRaw side L rd i0 items := by
  intro items
  induction items with
  | nil => intro i0 j hj; simp at hj
  | cons it rest ih =>
    intro i0 j hj hside
    cases j with
    | zero =>
      rw [openingsRaw]
      simp only [Nat.add_zero] at hside
      rw [if_pos hside]
      simp [Nat.add_zero]
    | succ k =>
      have hrec := ih (i0 + 1) k (by simpa using hj)
        (by rw [show i0 + 1 + k = i0 + (k + 1) from by omega]; exact hside)
      rw [show i0 + 1 + k = i0 + (k + 1) from by omega] at hrec
      rw [openingsRaw]
      split
      · exact List.mem_cons_of_mem _ hrec
      · exact hrec

/-- Kept hallway segments avoid every opening's interior. -/
theorem sideWallSegs_avoid (side : ℤ) (L rd : ℚ) (items : List Item)
    (hside : side = 1 ∨ side = -1) (hL : 0 < L) (hrd : 0 ≤ rd) (h2L : rd ≤ 2 * L) :
    ∀ s ∈ sideWallSegs side L rd items, ∀ op ∈ openings side L rd items,
      s.hi ≤ op.zEnd ∨ op.zStart ≤ s.lo := by
  intro s hs op hop
  have hchain := openings_chain side L rd items hside hL hrd h2L
  have hs' : s ∈ sideWallSegsAll side L rd items := by
    rw [sideWallSegs, hallSegsAux_eq_filter] at hs
    exact List.mem_of_mem_filter hs
  exact hallSegsAllAux_avoid_openings _ _ _ hchain s hs' op hop

theorem sideOf_parity (i j : ℕ) (h : sideOf i = sideOf j) : i % 2 = j % 2 := by
  rcases Nat.mod_two_eq_zero_or_one i with hi | hi <;>
    rcases Nat.mod_two_eq_zero_or_one j with hj | hj <;>
      simp [sideOf, hi, hj] at h ⊢

/-- Door gaps avoid the end-cap wall. -/
theorem gap_avoids_endWall (i n : ℕ) (x z : ℚ) (hiN : i < n)
    (hg : slotZ 10 i - 1.3 < z)
    (hin : inRect (endWallMesh 4 (hallLenOf n 10)).rect x z) : False := by
  obtain ⟨-, -, -, h4⟩ := hin
  have hcast : (i : ℚ) + 1 ≤ (n : ℚ) := by exact_mod_cast hiN
  unfold endWallMesh hallLenOf at h4
  unfold slotZ at hg
  simp only at h4
  linarith

/-- Door gaps avoid the same-side hallway wall segments. -/
theorem gap_avoids_hallSeg_same (items : List Item) (i : ℕ) (hi : i < items.length)
    (seg : HallSeg) (hseg : seg ∈ sideWallSegs (sideOf i) 10 10 items) (x z : ℚ)
    (hg3 : slotZ 10 i - 1.3 < z) (hg4 : z < slotZ 10 i + 1.3)
    (hin : inRect (hallSegMesh ((sideOf i : ℤ) : ℚ) 4 seg).rect x z) : False := by
  have hop : (⟨slotZ 10 i + 10 / 2, slotZ 10 i - 10 / 2⟩ : Opening)
      ∈ openings (sideOf i) 10 10 items := by
    rw [openings_eq_raw _ _ _ _ (by norm_num)]
    have h := openingsRaw_mem_of (sideOf i) 10 10 items 0 i hi (by rw [Nat.zero_add])
    rw [Nat.zero_add] at h
    exact h
  have havoid := sideWallSegs_avoid (sideOf i) 10 10 items (sideOf_mem i)
    (by norm_num) (by norm_num) (by norm_num) seg hseg _ hop
  obtain ⟨-, -, h3, h4⟩ := hin
  unfold hallSegMesh at h3 h4
  simp only at h3 h4 havoid
  rcases havoid with h | h <;> linarith

/-- Door gaps avoid every tagged structural mesh: the main content of the
doorway invariant. -/
theorem gap_avoids_wall_mesh (items : List Item)
    (hwidths : ∀ it ∈ items, 0.2 < it.rw)
    (m : SMesh) (hm : m ∈ sceneMeshes 4 10 10 items) (hwall : m.isWall = true)
    (i : ℕ) (hi : i < items.length) (x z : ℚ) (hgap : inDoorGap 4 10 i x z) :
    ¬ inRect m.rect x z := by
  intro hin
  obtain ⟨hg1, hg2, hg3, hg4⟩ := hgap
  rw [sceneMeshes] at hm
  rcases List.mem_cons.mp hm with rfl | hm1
  · exact gap_avoids_endWall i items.length x z hi hg3 hin
  simp only [List.mem_append] at hm1
  rcases hm1 with ((hmh1 | hmh2) | hmr) | hml
  · -- hallway segments, side +1
    obtain ⟨seg, hseg, rfl⟩ := List.mem_map.mp hmh1
    by_cases hside : sideOf i = 1
    · exact gap_avoids_hallSeg_same items i hi seg (by rw [hside]; exact hseg) x z hg3 hg4
        (by rw [show ((1 : ℤ) : ℚ) = ((sideOf i : ℤ) : ℚ) from by rw [hside]] at hin
            exact hin)
    · have hsi : sideOf i = -1 := (sideOf_mem i).resolve_left hside
      obtain ⟨h1, h2, -, -⟩ := hin
      unfold hallSegMesh at h1 h2
      rw [hsi] at hg1 hg2
      push_cast at hg1 hg2
      simp only at h1 h2
      norm_num at h1 h2
      linarith
  · -- hallway segments, side -1
    obtain ⟨seg, hseg, rfl⟩ := List.mem_map.mp hmh2
    by_cases hside : sideOf i = -1
    · exact gap_avoids_hallSeg_same items i hi seg (by rw [hside]; exact hseg) x z hg3 hg4
        (by rw [show ((-1 : ℤ) : ℚ) = ((sideOf i : ℤ) : ℚ) from by rw [hside]] at hin
            exact hin)
    · have hsi : sideOf i = 1 := by
        rcases sideOf_mem i with h | h
        · exact h
        · exact absurd h hside
      obtain ⟨h1, h2, -, -⟩ := hin
      unfold hallSegMesh at h1 h2
      rw [hsi] at hg1 hg2
      push_cast at hg1 hg2
      simp only at h1 h2
      norm_num at h1 h2
      linarith
  · -- room meshes
    obtain ⟨j, hj, hm6⟩ := (roomsMeshes_mem 4 10 10 items 0 m).mp hmr
    rw [Nat.zero_add] at hm6
    have hwj : (0.2 : ℚ) < (items.get ⟨j, hj⟩).rw := hwidths _ (items.get_mem _ _)
    set wj : ℚ := (items.get ⟨j, hj⟩).rw with hwjdef
    have hzij : ∀ d : ℕ, i + d ≤ j → slotZ 10 j ≤ slotZ 10 i - 10 * d := by
      intro d hd
      unfold slotZ
      have : (i : ℚ) + d ≤ (j : ℚ) := by exact_mod_cast hd
      nlinarith
    have hzji : ∀ d : ℕ, j + d ≤ i → slotZ 10 i ≤ slotZ 10 j - 10 * d := by
      intro d hd
      unfold slotZ
      have : (j : ℚ) + d ≤ (i : ℚ) := by exact_mod_cast hd
      nlinarith
    simp only [roomMeshes, List.mem_cons, List.mem_nil_iff, or_false] at hm6
    rcases hm6 with rfl | rfl | rfl | rfl | rfl | rfl
    · -- back wall of room j: z ∈ [Z_j - 5.2, Z_j - 5]
      obtain ⟨-, -, h3, h4⟩ := hin
      simp only at h3 h4
      rcases lt_trichotomy j i with hji | rfl | hij
      · have := hzji 1 (by omega)
        push_cast at this
        norm_num at h3 h4 ⊢
        linarith
      · norm_num at h3 h4
        linarith
      · have := hzij 1 (by omega)
        push_cast at this
        norm_num at h3 h4 ⊢
        linarith
    · -- outer side wall of room j: |x| ∈ [4 + wj - 0.1, 4 + wj + 0.1]
      obtain ⟨h1, h2, -, -⟩ := hin
      simp only at h1 h2
      have hxbound : -(4.1 : ℚ) ≤ x ∧ x ≤ 4.1 := by
        rcases sideOf_mem i with hsi | hsi <;> rw [hsi] at hg1 hg2 <;>
          push_cast at hg1 hg2 <;> constructor <;> linarith
      rcases sideOf_mem j with hsj | hsj <;> rw [hsj] at h1 h2 <;> push_cast at h1 h2 <;>
        linarith [hxbound.1, hxbound.2, hwj]
    · -- front wall of room j: z ∈ [Z_j + 4.9, Z_j + 5.1]
      obtain ⟨-, -, h3, h4⟩ := hin
      simp only at h3 h4
      rcases lt_trichotomy j i with hji | rfl | hij
      · have := hzji 1 (by omega)
        push_cast at this
        norm_num at h3 h4 ⊢
        linarith
      · norm_num at h3 h4
        linarith
      · have := hzij 1 (by omega)
        push_cast at this
        norm_num at h3 h4 ⊢
        linarith
    · -- inner rear segment of room j: x-slab at side_j, z ∈ [Z_j - 5, Z_j - 1.3]
      obtain ⟨h1, h2, h3, h4⟩ := hin
      simp only at h1 h2 h3 h4
      by_cases hss : sideOf j = sideOf i
      · have hpar := sideOf_parity j i hss
        rcases Nat.lt_trichotomy j i with hji | rfl | hij
        · have hd2 : j + 2 ≤ i := by omega
          have := hzji 2 hd2
          push_cast at this
          norm_num at h3 h4 ⊢
          linarith
        · norm_num at h3 h4
          linarith
        · have hd2 : i + 2 ≤ j := by omega
          have := hzij 2 hd2
          push_cast at this
          norm_num at h3 h4 ⊢
          linarith
      · rcases sideOf_mem i with hsi | hsi <;> rcases sideOf_mem j with hsj | hsj <;>
          first
          | exact hss (hsj.trans hsi.symm)
          | (rw [hsi] at hg1 hg2
             rw [hsj] at h1 h2
             push_cast at hg1 hg2 h1 h2
             linarith)
    · -- inner front segment of room j: z ∈ [Z_j + 1.3, Z_j + 5]
      obtain ⟨h1, h2, h3, h4⟩ := hin
      simp only at h1 h2 h3 h4
      by_cases hss : sideOf j = sideOf i
      · have hpar := sideOf_parity j i hss
        rcases Nat.lt_trichotomy j i with hji | rfl | hij
        · have hd2 : j + 2 ≤ i := by omega
          have := hzji 2 hd2
          push_cast at this
          norm_num at h3 h4 ⊢
          linarith
        · norm_num at h3 h4
          linarith
        · have hd2 : i + 2 ≤ j := by omega
          have := hzij 2 hd2
          push_cast at this
          norm_num at h3 h4 ⊢
          linarith
      · rcases sideOf_mem i with hsi | hsi <;> rcases sideOf_mem j with hsj | hsj <;>
          first
          | exact hss (hsj.trans hsi.symm)
          | (rw [hsi] at hg1 hg2
             rw [hsj] at h1 h2
             push_cast at hg1 hg2 h1 h2
             linarith)
    · -- the lintel is not tagged as a wall
      simp at hwall
  · -- lobby meshes: every tagged footprint has minZ ≥ -0.1 while
    -- gap z < slotZ + 1.3 ≤ -8.7
    obtain ⟨-, -, h3, -⟩ := hin
    have hz : z < -(8.7 : ℚ) := by
      unfold slotZ at hg4
      have : (0 : ℚ) ≤ (i : ℚ) := by positivity
      linarith
    simp only [lobbyMeshes, List.mem_cons, List.mem_nil_iff, or_false] at hml
    rcases hml with rfl | rfl | rfl | rfl | rfl | rfl | rfl | rfl | rfl | rfl <;>
      simp only at h3 <;> norm_num at h3 <;> linarith

/-- Claim C6: the collision extractor collects exactly the `isWall`-tagged
structural elements; each room's doorway lintel sits in the scene untagged
(its footprint covers the whole doorway gap, which is why skipping it
matters); and no collected BlockingVolume's vertical projection intersects
any room's doorway gap — the doorways are never closed off.  Stated at the
shipped configuration (`hallWidth 4`, `hallLength 10`, `roomDepth 10`) with
positive room widths (the sizing policy yields widths `≥ baseRoomWidth`). -/
theorem wallBoxes_never_close_doorways (items : List Item)
    (hwidths : ∀ it ∈ items, 0.2 < it.rw) :
    (∀ r : RectQ, r ∈ wallBoxes 4 10 10 items ↔
        ∃ m ∈ sceneMeshes 4 10 10 items, m.isWall = true ∧ m.rect = r) ∧
    (∀ i, ∀ hi : i < items.length,
      ∃ m ∈ sceneMeshes 4 10 10 items, m.isWall = false ∧
        ∀ x z : ℚ, inDoorGap 4 10 i x z → inRect m.rect x z) ∧
    (∀ i, i < items.length → ∀ x z : ℚ, inDoorGap 4 10 i x z →
        ∀ b ∈ wallBoxes 4 10 10 items, ¬ inRect b x z) := by
  refine ⟨?_, ?_, ?_⟩
  · intro r
    constructor
    · intro hr
      obtain ⟨m, hm, hrect⟩ := List.mem_map.mp hr
      obtain ⟨hmem, hpw⟩ := List.mem_filter.mp hm
      exact ⟨m, hmem, by simpa using hpw, hrect⟩
    · rintro ⟨m, hm, hwall, hrect⟩
      exact List.mem_map.mpr ⟨m, List.mem_filter.mpr ⟨hm, by simpa using hwall⟩, hrect⟩
  · intro i hi
    refine ⟨⟨⟨((sideOf i : ℤ) : ℚ) * (4 + (items.get ⟨i, hi⟩).rw / 2)
          - ((sideOf i : ℤ) : ℚ) * (items.get ⟨i, hi⟩).rw / 2 - 0.1,
        ((sideOf i : ℤ) : ℚ) * (4 + (items.get ⟨i, hi⟩).rw / 2)
          - ((sideOf i : ℤ) : ℚ) * (items.get ⟨i, hi⟩).rw / 2 + 0.1,
        slotZ 10 i - 1.3, slotZ 10 i + 1.3⟩, false⟩, ?_, rfl, ?_⟩
    · rw [sceneMeshes]
      apply List.mem_cons_of_mem
      refine List.mem_append.mpr (Or.inl (List.mem_append.mpr (Or.inr ?_)))
      apply (roomsMeshes_mem 4 10 10 items 0 _).mpr
      exact ⟨i, hi, by rw [Nat.zero_add]; simp [roomMeshes]⟩
    · intro x z hg
      obtain ⟨hg1, hg2, hg3, hg4⟩ := hg
      have hid : ((sideOf i : ℤ) : ℚ) * (4 + (items.get ⟨i, hi⟩).rw / 2)
          - ((sideOf i : ℤ) : ℚ) * (items.get ⟨i, hi⟩).rw / 2
          = ((sideOf i : ℤ) : ℚ) * 4 := by ring
      exact ⟨by simp only []; linarith, by simp only []; linarith,
        le_of_lt hg3, le_of_lt hg4⟩
  · intro i hi x z hg b hb
    obtain ⟨m, hm, hrect⟩ := List.mem_map.mp hb
    obtain ⟨hmem, hpw⟩ := List.mem_filter.mp hm
    rw [← hrect]
    exact gap_avoids_wall_mesh items hwidths m hmem (by simpa using hpw) i hi x z hg

/-- Witness for C6: the doorway invariant evaluated on the concrete
three-item list. -/
theorem wallBoxes_never_close_doorways_witness :
    (∀ r : RectQ, r ∈ wallBoxes 4 10 10 demoItems ↔
        ∃ m ∈ sceneMeshes 4 10 10 demoItems, m.isWall = true ∧ m.rect = r) ∧
    (∀ i, ∀ hi : i < demoItems.length,
      ∃ m ∈ sceneMeshes 4 10 10 demoItems, m.isWall = false ∧
        ∀ x z : ℚ, inDoorGap 4 10 i x z → inRect m.rect x z) ∧
    (∀ i, i < demoItems.length → ∀ x z : ℚ, inDoorGap 4 10 i x z →
        ∀ b ∈ wallBoxes 4 10 10 demoItems, ¬ inRect b x z) :=
  wallBoxes_never_close_doorways demoItems (by
    intro it hit
    rcases List.mem_cons.mp hit with rfl | hit'
    · norm_num [demoItems]
    · rcases List.mem_cons.mp hit' with rfl | hit''
      · norm_num [demoItems]
      · rcases List.mem_cons.mp hit'' with rfl | hit'''
        · norm_num [demoItems]
        · simp [demoItems] at hit''')

end GitGallery
